import Mathlib

/-!
# The codebase flattener (`src/tools/flattener/main.js`)

A shallow embedding of the flattener's ignore filtering, file aggregation and
XML serialisation, with the properties of its specification stated over it.

JavaScript strings are modelled as lists of Unicode characters, their length
being counted in UTF-16 code units (`jsLength`); `fs`, `path`, `glob`
and `minimatch` are libraries outside the program and enter either as
parameters or through small documented models.
-/

namespace Flattener

/-- A JavaScript string, as the list of its Unicode characters (code points):
the well-formed strings, which are what decoding a file as UTF-8 gives. -/
abbrev Str := List Char

/-! ## JavaScript string primitives -/

/-- `s.length`: the number of UTF-16 code units of the string, one for a
character up to U+FFFF and two for a character beyond it. -/
def jsLength : Str → Nat
  | [] => 0
  | c :: cs => (if c.toNat < 0x10000 then 1 else 2) + jsLength cs

/-- `s.split('\n')`: the segments between line feeds; never the empty list. -/
def splitLines : Str → List Str
  | [] => [[]]
  | c :: cs =>
    if c = '\n' then [] :: splitLines cs
    else
      match splitLines cs with
      | [] => [[c]]
      | l :: ls => (c :: l) :: ls

/-- `parts.join('\n')`. -/
def joinLines : List Str → Str
  | [] => []
  | [l] => l
  | l :: ls => l ++ '\n' :: joinLines ls

/-- The characters `String.prototype.trim` strips: ECMAScript `WhiteSpace` and
`LineTerminator`. -/
def isWhiteSpace (c : Char) : Bool :=
  let n := c.toNat
  n == 0x09 || n == 0x0A || n == 0x0B || n == 0x0C || n == 0x0D || n == 0x20 ||
  n == 0xA0 || n == 0x1680 || (0x2000 ≤ n && n ≤ 0x200A) || n == 0x2028 ||
  n == 0x2029 || n == 0x202F || n == 0x205F || n == 0x3000 || n == 0xFEFF

/-- `s.trim()`. -/
def trim (s : Str) : Str :=
  ((s.dropWhile isWhiteSpace).reverse.dropWhile isWhiteSpace).reverse

/-- `s.startsWith(p)`. -/
def startsWith (s p : Str) : Bool := p.isPrefixOf s

/-- `s.endsWith(p)`. -/
def endsWith (s p : Str) : Bool := p.isSuffixOf s

/-- `s.includes(p)`. -/
def includes : Str → Str → Bool
  | [], p => p.isEmpty
  | c :: cs, p => p.isPrefixOf (c :: cs) || includes cs p

/-- `s.replace(/c/g, rep)` for a single-character pattern `c`. -/
def replaceChar (c : Char) (rep : Str) : Str → Str
  | [] => []
  | x :: xs =>
    if x = c then rep ++ replaceChar c rep xs else x :: replaceChar c rep xs

/-! ## Records (`aggregateFileContents`, lines 120-126, 140-144, 148-154, 160-164) -/

/-- An entry of `results.textFiles`. -/
structure TextFileRecord where
  path : Str
  absolutePath : Str
  content : Str
  size : Nat
  lines : Nat
deriving DecidableEq, Repr

/-- An entry of `results.binaryFiles`. -/
structure BinaryFileRecord where
  path : Str
  absolutePath : Str
  size : Nat
deriving DecidableEq, Repr

/-- An entry of `results.errors`. -/
structure ErrorRecord where
  path : Str
  absolutePath : Str
  error : Str
deriving DecidableEq, Repr

/-- The `results` object of `aggregateFileContents`. -/
structure AggregateResult where
  textFiles : List TextFileRecord
  binaryFiles : List BinaryFileRecord
  errors : List ErrorRecord
  totalFiles : Nat
  processedFiles : Nat
deriving DecidableEq, Repr

/-! ## The libraries the program calls -/

/-- The functions of Node's `path` module that the program calls. -/
structure PathModule where
  join : Str → Str → Str
  relative : Str → Str → Str
  resolve : Str → Str → Str
  extname : Str → Str

/-- What the file system answers to the calls of the program: a size, bytes or
text, or the message of the error thrown. -/
structure FileSystem where
  pathExists : Str → Bool
  statSize : Str → Except Str Nat
  readFileBytes : Str → Except Str (List Nat)
  readFileUtf8 : Str → Except Str Str

/-- The call `glob('**/*', { cwd, nodir: true, dot: true, follow: false,
ignore })` of line 27: from the directory and the ignore patterns to the
relative paths found, or the message of the error thrown. -/
abbrev GlobCall := Str → List Str → Except Str (List Str)

/-- The call `minimatch(file, pattern)`. -/
abbrev MatchCall := Str → Str → Bool

/-! ## Ignore rules (lines 47-69) -/

/-- The chain of lines 54-64 of `parseGitignore`, on the text of the file. -/
def parseGitignoreContent (content : Str) : List Str :=
  (((splitLines content).map (fun line => trim line)).filter
      (fun line => line ≠ [] && !startsWith line "#".toList)).map
    (fun pattern => if endsWith pattern "/".toList then pattern ++ "**".toList else pattern)

/-- `parseGitignore` (lines 47-69): no file or a failed read give no pattern. -/
def parseGitignore (fs : FileSystem) (gitignorePath : Str) : List Str :=
  if !fs.pathExists gitignorePath then []
  else
    match fs.readFileUtf8 gitignorePath with
    | .error _ => []
    | .ok content => parseGitignoreContent content

/-! ## Discovery (lines 14-40) -/

/-- `discoverFiles` (lines 14-40). -/
def discoverFiles (P : PathModule) (fs : FileSystem) (glob : GlobCall) (rootDir : Str) :
    List Str :=
  let gitignorePath := P.join rootDir ".gitignore".toList
  let gitignorePatterns := parseGitignore fs gitignorePath
  let combinedIgnores := gitignorePatterns ++
    [".git/**".toList, "flattened-codebase.xml".toList, "repomix-output.xml".toList]
  match glob rootDir combinedIgnores with
  | .error _ => []
  | .ok files => files.map (fun file => P.resolve rootDir file)

/-! ## Filtering (lines 321-367) -/

/-- The decision of lines 340-358 for one relative path: the first loop sets
the flag when a positive pattern matches, the second clears it when the flag
is set and a negative pattern matches. -/
def shouldIgnore (minimatch : MatchCall) (positivePatterns negativePatterns : List Str)
    (file : Str) : Bool :=
  let shouldIgnore := positivePatterns.any (fun pattern => minimatch file pattern)
  if shouldIgnore then
    if negativePatterns.any (fun pattern => minimatch file pattern) then false
    else shouldIgnore
  else shouldIgnore

/-- Lines 325-366 of `filterFiles`, on the patterns that have been loaded. -/
def filterWithPatterns (P : PathModule) (minimatch : MatchCall) (ignorePatterns : List Str)
    (files : List Str) (rootDir : Str) : List Str :=
  if ignorePatterns.length = 0 then files
  else
    let relativeFiles := files.map (fun file => P.relative rootDir file)
    let positivePatterns := ignorePatterns.filter (fun p => !startsWith p "!".toList)
    let negativePatterns :=
      (ignorePatterns.filter (fun p => startsWith p "!".toList)).map (fun p => p.drop 1)
    let filteredRelative :=
      relativeFiles.filter (fun file => !shouldIgnore minimatch positivePatterns negativePatterns file)
    filteredRelative.map (fun file => P.resolve rootDir file)

/-- `filterFiles` (lines 321-367). -/
def filterFiles (P : PathModule) (fs : FileSystem) (minimatch : MatchCall)
    (files : List Str) (rootDir : Str) : List Str :=
  let gitignorePath := P.join rootDir ".gitignore".toList
  let ignorePatterns := parseGitignore fs gitignorePath
  filterWithPatterns P minimatch ignorePatterns files rootDir

/-! ## Classification (lines 76-110) -/

/-- The list `binaryExtensions` of lines 79-87. -/
def binaryExtensions : List Str :=
  [".jpg", ".jpeg", ".png", ".gif", ".bmp", ".ico", ".svg",
   ".pdf", ".doc", ".docx", ".xls", ".xlsx", ".ppt", ".pptx",
   ".zip", ".tar", ".gz", ".rar", ".7z",
   ".exe", ".dll", ".so", ".dylib",
   ".mp3", ".mp4", ".avi", ".mov", ".wav",
   ".ttf", ".otf", ".woff", ".woff2",
   ".bin", ".dat", ".db", ".sqlite"].map String.toList

/-- `s.toLowerCase()`, on the letters `A` to `Z`; the other characters are
kept. -/
def toLowerCase (s : Str) : Str := s.map Char.toLower

/-- `isBinaryFile` (lines 76-110): an error of `stat` or of the read is caught
and gives `false`. -/
def isBinaryFile (P : PathModule) (fs : FileSystem) (filePath : Str) : Bool :=
  let ext := toLowerCase (P.extname filePath)
  if binaryExtensions.contains ext then true
  else
    match fs.statSize filePath with
    | .error _ => false
    | .ok size =>
      if size = 0 then false
      else
        let sampleSize := min 1024 size
        match fs.readFileBytes filePath with
        | .error _ => false
        | .ok buffer =>
          let sample := buffer.take sampleSize
          sample.contains 0

/-! ## Aggregation (lines 119-180) -/

/-- The `try` block of lines 129-157 for one file, up to the push: the record
list grown by one entry, or the message of the error thrown by `stat` or by
the read before anything was pushed. -/
def tryProcessFile (P : PathModule) (fs : FileSystem) (rootDir : Str)
    (results : AggregateResult) (filePath : Str) : Except Str AggregateResult :=
  let relativePath := P.relative rootDir filePath
  let isBinary := isBinaryFile P fs filePath
  if isBinary then
    match fs.statSize filePath with
    | .error message => .error message
    | .ok size =>
      .ok { results with
        binaryFiles := results.binaryFiles ++
          [{ path := relativePath, absolutePath := filePath, size := size }] }
  else
    match fs.readFileUtf8 filePath with
    | .error message => .error message
    | .ok content =>
      .ok { results with
        textFiles := results.textFiles ++
          [{ path := relativePath, absolutePath := filePath, content := content,
             size := jsLength content, lines := (splitLines content).length }] }

/-- One iteration of the loop of lines 128-177: the `try` block followed by
`processedFiles++`, or the `catch` block, which pushes the error record and
increments `processedFiles` as well. -/
def processFile (P : PathModule) (fs : FileSystem) (rootDir : Str)
    (results : AggregateResult) (filePath : Str) : AggregateResult :=
  match tryProcessFile P fs rootDir results filePath with
  | .ok pushed => { pushed with processedFiles := pushed.processedFiles + 1 }
  | .error message =>
    let relativePath := P.relative rootDir filePath
    let errorInfo : ErrorRecord :=
      { path := relativePath, absolutePath := filePath, error := message }
    { results with
      errors := results.errors ++ [errorInfo]
      processedFiles := results.processedFiles + 1 }

/-- `aggregateFileContents` (lines 119-180); the spinner only displays. -/
def aggregateFileContents (P : PathModule) (fs : FileSystem) (files : List Str)
    (rootDir : Str) : AggregateResult :=
  let results : AggregateResult :=
    { textFiles := [], binaryFiles := [], errors := [],
      totalFiles := files.length, processedFiles := 0 }
  files.foldl (processFile P fs rootDir) results

/-! ## Serialisation (lines 188-274) -/

/-- `escapeXml` (lines 233-243) on a string argument: five global replacements
in sequence, the ampersand first. -/
def escapeXml (str : Str) : Str :=
  replaceChar '\'' "&apos;".toList
    (replaceChar '"' "&quot;".toList
      (replaceChar '>' "&gt;".toList
        (replaceChar '<' "&lt;".toList
          (replaceChar '&' "&amp;".toList str))))

/-- `indentFileContent` (lines 250-257) on a string argument. -/
def indentFileContent (content : Str) : Str :=
  joinLines ((splitLines content).map (fun line => "    ".toList ++ line))

/-- `content.replace(/]]>/g, ']]]]><![CDATA[>')` (line 270): every leftmost,
non-overlapping occurrence of the closing delimiter is replaced. -/
def replaceCDATAEnd : Str → Str
  | ']' :: ']' :: '>' :: rest => "]]]]><![CDATA[>".toList ++ replaceCDATAEnd rest
  | c :: rest => c :: replaceCDATAEnd rest
  | [] => []

/-- The template literal of lines 207-209, 214-216 and 271-273: the text is put
between `<![CDATA[` plus a line feed and a line feed, four spaces and `]]>`. -/
def cdataTemplate (text : Str) : Str :=
  "<![CDATA[\n".toList ++ text ++ "\n    ]]>".toList

/-- `splitAndWrapCDATA` (lines 264-274) on a string argument. -/
def splitAndWrapCDATA (content : Str) : Str :=
  let escapedContent := replaceCDATAEnd content
  cdataTemplate escapedContent

/-- The text `generateXMLOutput` puts between `<file path="…">` and `</file>`
(lines 200-217). -/
def fileBody (content : Str) : Str :=
  if trim content ≠ [] then
    let indentedContent := indentFileContent content
    if includes content "]]>".toList then
      splitAndWrapCDATA indentedContent
    else
      cdataTemplate indentedContent
  else if content ≠ [] then
    let indentedContent := indentFileContent content
    cdataTemplate indentedContent
  else
    []

/-- One iteration of the loop of `generateXMLOutput` (lines 197-221). -/
def appendFile (xml : Str) (file : TextFileRecord) : Str :=
  xml ++ "  <file path=\"".toList ++ escapeXml file.path ++ "\">".toList ++
    fileBody file.content ++ "</file>\n".toList

/-- `generateXMLOutput` (lines 188-226). -/
def generateXMLOutput (aggregatedContent : AggregateResult) : Str :=
  let xml := "<?xml version=\"1.0\" encoding=\"UTF-8\"?>\n".toList
  let xml := xml ++ "<files>\n".toList
  let xml := aggregatedContent.textFiles.foldl appendFile xml
  xml ++ "</files>\n".toList

/-! ## Statistics (lines 282-313) -/

/-- The conversions of numbers to text that `calculateStatistics` uses: the
decimal form of an integer in a template literal, `(a / b).toFixed(1)` and
`n.toLocaleString()`. -/
structure NumberFormat where
  decimal : Nat → Str
  toFixed1 : Nat → Nat → Str
  toLocaleString : Nat → Str

/-- The object `calculateStatistics` returns. -/
structure Statistics where
  totalFiles : Nat
  textFiles : Nat
  binaryFiles : Nat
  errorFiles : Nat
  totalSize : Str
  xmlSize : Str
  totalLines : Nat
  estimatedTokens : Str
deriving DecidableEq, Repr

/-- The closure `formatSize` of lines 297-301. -/
def formatSize (nf : NumberFormat) (bytes : Nat) : Str :=
  if bytes < 1024 then nf.decimal bytes ++ " B".toList
  else if bytes < 1024 * 1024 then nf.toFixed1 bytes 1024 ++ " KB".toList
  else nf.toFixed1 bytes (1024 * 1024) ++ " MB".toList

/-- `calculateStatistics` (lines 282-313); `Math.ceil(n / 4)` of a length is
`(n + 3) / 4`. -/
def calculateStatistics (nf : NumberFormat) (aggregatedContent : AggregateResult)
    (xmlContent : Str) : Statistics :=
  let textFiles := aggregatedContent.textFiles
  let binaryFiles := aggregatedContent.binaryFiles
  let errors := aggregatedContent.errors
  let totalTextSize := textFiles.foldl (fun sum file => sum + file.size) 0
  let totalBinarySize := binaryFiles.foldl (fun sum file => sum + file.size) 0
  let totalSize := totalTextSize + totalBinarySize
  let totalLines := textFiles.foldl (fun sum file => sum + file.lines) 0
  let estimatedTokens := (jsLength xmlContent + 3) / 4
  { totalFiles := textFiles.length + binaryFiles.length
    textFiles := textFiles.length
    binaryFiles := binaryFiles.length
    errorFiles := errors.length
    totalSize := formatSize nf totalSize
    xmlSize := formatSize nf (jsLength xmlContent)
    totalLines := totalLines
    estimatedTokens := nf.toLocaleString estimatedTokens }

/-! ## Models of the libraries

`minimatch`, `glob`, `path` and `fs` are not code of the flattener. To run the
program on concrete inputs they are given the models below, which follow the
documented behaviour of the libraries on the inputs described with each. -/

/-- `s.split(/\/+/)`, the way minimatch cuts patterns and paths into
segments: an empty segment can only be the first or the last. -/
def splitSlash : Str → List Str
  | [] => [[]]
  | c :: cs =>
    if c = '/' then
      match cs with
      | [] => [[], []]
      | d :: _ => if d = '/' then splitSlash cs else [] :: splitSlash cs
    else
      match splitSlash cs with
      | [] => [[c]]
      | l :: ls => (c :: l) :: ls

/-- A segment of a parsed pattern: `**` alone, or a segment to compare. -/
inductive PatternPart where
  | globstar : PatternPart
  | segment : Str → PatternPart
deriving DecidableEq, Repr

/-- The options of minimatch that play a part here. -/
structure MatchOptions where
  dot : Bool
  nonegate : Bool
  nocomment : Bool
deriving DecidableEq, Repr

/-- The text `*` stands for: `k` is tried on every suffix of the segment. -/
def starLoop (k : Str → Bool) : Str → Bool
  | [] => k []
  | c :: cs => k (c :: cs) || starLoop k cs

/-- A segment against a segment pattern in which `*` stands for any run of
characters and `?` for one character. -/
def wildcardMatch : Str → Str → Bool
  | [], s => s.isEmpty
  | p :: ps, s =>
    if p = '*' then starLoop (fun t => wildcardMatch ps t) s
    else
      match s with
      | [] => false
      | c :: cs => (p = '?' || p = c) && wildcardMatch ps cs

/-- A path segment that `*`, `?` or `**` at its start must not match: one
beginning with a dot, or with the `dot` option only `.` and `..`. -/
def dotBlocked (dot : Bool) (f : Str) : Bool :=
  if dot then f == ".".toList || f == "..".toList else f.head? == some '.'

/-- One path segment against one pattern segment: equality when the pattern
has no `*` and no `?`; otherwise the segment is not empty, obeys the dot rule
when the pattern begins with `*` or `?`, and matches the wildcards. -/
def segmentMatch (dot : Bool) (p f : Str) : Bool :=
  if p.contains '*' || p.contains '?' then
    !f.isEmpty &&
      !((p.head? == some '*' || p.head? == some '?') && dotBlocked dot f) &&
      wildcardMatch p f
  else f == p

/-- The loop of `matchOne` for a `**` that is not the last part: the rest of
the pattern is tried from every later segment, until a dot-blocked segment
would have to be swallowed. -/
def globstarLoop (dot : Bool) (k : List Str → Bool) : List Str → Bool
  | [] => false
  | f :: fs => k (f :: fs) || (!dotBlocked dot f && globstarLoop dot k fs)

/-- The `matchOne` of minimatch, without partial matching: the parts of the
pattern against the segments of the path. -/
def matchOne (dot : Bool) : List PatternPart → List Str → Bool
  | [], [] => true
  | [], [f] => f.isEmpty
  | [], _ :: _ :: _ => false
  | _ :: _, [] => false
  | .globstar :: ps, f :: fs =>
    if ps.isEmpty then (f :: fs).all (fun g => !dotBlocked dot g)
    else globstarLoop dot (fun rest => matchOne dot ps rest) (f :: fs)
  | .segment p :: ps, f :: fs => segmentMatch dot p f && matchOne dot ps fs

/-- The parts of a pattern: its segments, a `**` segment being a globstar and
a run of them counting once. -/
def parsePattern (pattern : Str) : List PatternPart :=
  ((splitSlash pattern).map
      (fun seg => if seg = "**".toList then PatternPart.globstar else PatternPart.segment seg)).foldr
    (fun part acc =>
      if part = PatternPart.globstar ∧ acc.head? = some PatternPart.globstar then acc
      else part :: acc) []

/-- A model of `minimatch(file, pattern, options)` for patterns in which every
character other than `/`, `*`, `?` and leading `!` or `#` stands for itself
(no brackets, braces, parentheses or backslash, no `.` or `..` segment):
a `#` pattern is a comment and matches nothing, the empty pattern matches the
empty path only, each leading `!` negates, and otherwise every path segment
has to be matched by the pattern's parts; there is no matching against the
base name alone (`matchBase` is off). -/
def minimatchWith (options : MatchOptions) (file pattern : Str) : Bool :=
  if !options.nocomment && pattern.head? == some '#' then false
  else if pattern.isEmpty then file.isEmpty
  else
    let bangs := if options.nonegate then 0 else (pattern.takeWhile (fun c => c == '!')).length
    let negate := bangs % 2 == 1
    let hit := matchOne options.dot (parsePattern (pattern.drop bangs)) (splitSlash file)
    if hit then !negate else negate

/-- A model of `minimatch(file, pattern)` as `filterFiles` calls it, with the
default options. -/
def minimatch : MatchCall :=
  minimatchWith { dot := false, nonegate := false, nocomment := false }

/-- The test glob makes of a relative path against one `ignore` pattern: the
path, or the path followed by `/`, is matched with `dot`, `nonegate` and
`nocomment` set, so a leading `!` is an ordinary character there. -/
def globIgnores (pattern file : Str) : Bool :=
  minimatchWith { dot := true, nonegate := true, nocomment := true } file pattern ||
    minimatchWith { dot := true, nonegate := true, nocomment := true } (file ++ ['/']) pattern

/-- A model of the `glob` call of line 27 over a directory whose regular files
have the given relative paths: `**/*` with `dot: true` and `nodir: true` finds
every one of them, and a path is left out when some `ignore` pattern matches
it. -/
def globModel (tree : List Str) : GlobCall :=
  fun _ ignore =>
    .ok (tree.filter (fun file => !ignore.any (fun pattern => globIgnores pattern file)))

/-- The extension of a base name as `path.extname` gives it: from the last
dot on, and nothing when there is no dot, when the last dot is the first
character, or when the name is `..`. -/
def extnameOfBase (base : Str) : Str :=
  let afterLastDot := (base.reverse.takeWhile (fun c => c != '.')).reverse
  if afterLastDot.length = base.length then []
  else if afterLastDot.length + 1 = base.length then []
  else if base = "..".toList then []
  else '.' :: afterLastDot

/-- A model of the `path` functions for a normalised absolute root and paths
below it, on a POSIX system. -/
def posixPath : PathModule where
  join := fun dir name => dir ++ '/' :: name
  resolve := fun root file => root ++ '/' :: file
  relative := fun root file =>
    if (root ++ ['/']).isPrefixOf file then file.drop (root.length + 1) else file
  extname := fun file =>
    extnameOfBase ((file.reverse.takeWhile (fun c => c != '/')).reverse)

/-- A file system holding the given files, by absolute path, with the bytes
and the text of each; any other path gives the error `ENOENT`. -/
def fileSystemOf (files : List (Str × List Nat × Str)) : FileSystem where
  pathExists := fun p => files.any (fun f => f.1 == p)
  statSize := fun p =>
    match files.find? (fun f => f.1 == p) with
    | some f => .ok f.2.1.length
    | none => .error "ENOENT".toList
  readFileBytes := fun p =>
    match files.find? (fun f => f.1 == p) with
    | some f => .ok f.2.1
    | none => .error "ENOENT".toList
  readFileUtf8 := fun p =>
    match files.find? (fun f => f.1 == p) with
    | some f => .ok f.2.2
    | none => .error "ENOENT".toList

/-- A text file of ASCII characters for `fileSystemOf`. -/
def asciiFile (path : String) (text : String) : Str × List Nat × Str :=
  (path.toList, text.toList.map Char.toNat, text.toList)

/-! ## Reading the document back

The reader's side of the serialisation properties: how a consumer of the
document takes a `<file>` element apart. These definitions follow the XML
rules the specification refers to, not code of the flattener. -/

/-- One CDATA section with the given payload. -/
def cdataSection (payload : Str) : Str :=
  "<![CDATA[".toList ++ payload ++ "]]>".toList

/-- The payload of a CDATA section whose opening has been consumed: the text
up to the first `]]>`, and the text after that delimiter. -/
def untilCDATAEnd : Str → Option (Str × Str)
  | ']' :: ']' :: '>' :: rest => some ([], rest)
  | c :: rest => (untilCDATAEnd rest).map (fun pr => (c :: pr.1, pr.2))
  | [] => none

/-- Reads consecutive CDATA sections off the front of the text: their payloads
in order, and the text left after the last complete section. The first
argument bounds the number of sections read. -/
def parseCDATASections : Nat → Str → List Str × Str
  | 0, s => ([], s)
  | n + 1, s =>
    if "<![CDATA[".toList.isPrefixOf s then
      match untilCDATAEnd (s.drop 9) with
      | some (payload, rest) =>
        ((payload :: (parseCDATASections n rest).1), (parseCDATASections n rest).2)
      | none => ([], s)
    else ([], s)

/-- The five predefined XML entities and the characters they stand for. -/
def entityTable : List (Str × Char) :=
  [("&amp;".toList, '&'), ("&lt;".toList, '<'), ("&gt;".toList, '>'),
   ("&quot;".toList, '"'), ("&apos;".toList, '\'')]

/-- Decoding in one left-to-right pass, the first argument being the number of
characters still to skip because they belong to an entity already decoded. -/
def decodeEntitiesFrom : Nat → Str → Str
  | _, [] => []
  | skip + 1, _ :: rest => decodeEntitiesFrom skip rest
  | 0, c :: rest =>
    match entityTable.find? (fun e => e.1.isPrefixOf (c :: rest)) with
    | some e => e.2 :: decodeEntitiesFrom (e.1.length - 1) rest
    | none => c :: decodeEntitiesFrom 0 rest

/-- Decoding of the five predefined XML entities (`&amp;` `&lt;` `&gt;`
`&quot;` `&apos;`) in one left-to-right pass; any other text is kept. -/
def decodeEntities (s : Str) : Str := decodeEntitiesFrom 0 s

/-- Reads one `<file>` element as `generateXMLOutput` lays it out: the decoded
`path` attribute and the concatenated payloads of the CDATA sections of its
body. `none` when the text is not such an element. -/
def parseFileElement (element : Str) : Option (Str × Str) :=
  if "  <file path=\"".toList.isPrefixOf element then
    let afterOpen := element.drop 14
    let attr := afterOpen.takeWhile (fun c => c != '"')
    let afterAttribute := afterOpen.dropWhile (fun c => c != '"')
    if "\">".toList.isPrefixOf afterAttribute then
      let body := afterAttribute.drop 2
      let sections := parseCDATASections body.length body
      if sections.2 = "</file>\n".toList then
        some (decodeEntities attr, sections.1.flatten)
      else none
    else none
  else none

/-- Puts a character in front of the first string of a list. -/
def consHead (c : Char) : List Str → List Str
  | [] => [[c]]
  | p :: ps => (c :: p) :: ps

/-- The payloads of the CDATA sections that `splitAndWrapCDATA` produces for
a text followed by `tail`: a new payload starts inside every `]]>` of the
text, after its `]]`. -/
def cdataPayloads (tail : Str) : Str → List Str
  | ']' :: ']' :: '>' :: rest => [']', ']'] :: consHead '>' (cdataPayloads tail rest)
  | c :: rest => consHead c (cdataPayloads tail rest)
  | [] => [tail]

/-- The entity form of one character: the five special characters become
their entities, every other character stays as it is. -/
def escapeChar (c : Char) : Str :=
  if c = '&' then "&amp;".toList
  else if c = '<' then "&lt;".toList
  else if c = '>' then "&gt;".toList
  else if c = '"' then "&quot;".toList
  else if c = '\'' then "&apos;".toList
  else [c]

/-- Escaping in a single pass, each character replaced independently. -/
def escapeXmlSinglePass (s : Str) : Str := s.flatMap escapeChar

/-- The `<file>` element `generateXMLOutput` appends for one record. -/
def fileElement (file : TextFileRecord) : Str := appendFile [] file

/-- The rule of the specification for dropping a relative path: some pattern
without a leading `!` matches it, and no pattern with a leading `!`, taken
without that `!`, matches it. -/
def droppedByRules (minimatch : MatchCall) (patterns : List Str) (file : Str) : Bool :=
  patterns.any (fun p => !startsWith p "!".toList && minimatch file p) &&
    !patterns.any (fun p => startsWith p "!".toList && minimatch file (p.drop 1))

/-- The relative paths of all the records of a result: text, binary, errors. -/
def recordedPaths (r : AggregateResult) : List Str :=
  r.textFiles.map (fun t => t.path) ++ r.binaryFiles.map (fun b => b.path) ++
    r.errors.map (fun e => e.path)

/-- The patterns of an ignore file as the specification words them: of the
lines between line feeds, trimmed, those that are not empty and do not begin
with `#`, in order, `**` being appended to a line that ends in `/`. -/
def specifiedPatterns (text : Str) : List Str :=
  ((splitLines text).map trim).filterMap (fun line =>
    if line = [] ∨ line.head? = some '#' then none
    else if line.getLast? = some '/' then some (line ++ ['*', '*'])
    else some line)

/-- The entries a result takes from one candidate alone: the records of the
loop iteration run on the empty result. -/
def recordsOf (P : PathModule) (fs : FileSystem) (rootDir : Str) (filePath : Str) :
    AggregateResult :=
  processFile P fs rootDir
    { textFiles := [], binaryFiles := [], errors := [], totalFiles := 0, processedFiles := 0 }
    filePath

/-! ## Example inputs -/

/-- A text record with content `a]]>b`. -/
def delimiterRecord : TextFileRecord :=
  { path := "a.txt".toList, absolutePath := "/root/a.txt".toList,
    content := "a]]>b".toList, size := 5, lines := 1 }

/-- The record `aggregateFileContents` makes for an empty file. -/
def emptyRecord : TextFileRecord :=
  { path := "empty.txt".toList, absolutePath := "/root/empty.txt".toList,
    content := [], size := 0, lines := 1 }

/-- A root with `keep.txt`, `other.txt` and an ignore file of two lines,
`*.txt` and `!keep.txt`. -/
def keepRoot : FileSystem :=
  fileSystemOf [asciiFile "/root/.gitignore" "*.txt\n!keep.txt\n",
    asciiFile "/root/keep.txt" "kept", asciiFile "/root/other.txt" "other"]

/-- The relative paths of the regular files of `keepRoot`. -/
def keepTree : List Str := [".gitignore".toList, "keep.txt".toList, "other.txt".toList]

/-- A root whose ignore file is the single line `build/`. -/
def buildRoot : FileSystem :=
  fileSystemOf [asciiFile "/root/.gitignore" "build/\n"]

/-- A root whose ignore file is the single line `*.txt`. -/
def txtRoot : FileSystem :=
  fileSystemOf [asciiFile "/root/.gitignore" "*.txt\n"]

/-- A root with a text file, a file with a binary extension, and a candidate
path that does not exist. -/
def mixedRoot : FileSystem :=
  fileSystemOf [asciiFile "/root/a.txt" "hello", asciiFile "/root/img.png" "PNG"]

/-- A root with one file of 1024 bytes `A` followed by a null byte, and one
file with a null byte among its first bytes. -/
def sampleRoot : FileSystem :=
  fileSystemOf
    [("/root/late.txt".toList, List.replicate 1024 65 ++ [0], []),
     ("/root/early.txt".toList, [65, 0, 66], [])]

/-- A root whose ignore file has a comment, a blank line, a directory line
with spaces around it, a plain line and a negated line. -/
def rulesRoot : FileSystem :=
  fileSystemOf
    [asciiFile "/root/.gitignore" "# build output\n\n  dist/  \n*.log\n!keep.log\n"]

/-- A root without an ignore file. -/
def bareRoot : FileSystem := fileSystemOf [asciiFile "/root/a.txt" "hello"]

/-- A root with a file holding the single character U+1F600 (four bytes) and a
file holding `é` and a line feed (three bytes). -/
def unicodeRoot : FileSystem :=
  fileSystemOf
    [("/root/face.txt".toList, [0xF0, 0x9F, 0x98, 0x80], [Char.ofNat 0x1F600]),
     ("/root/accent.txt".toList, [0xC3, 0xA9, 0x0A], [Char.ofNat 0xE9, '\n'])]

/-! ## Properties -/

theorem flatten_consHead (c : Char) (l : List Str) :
    (consHead c l).flatten = c :: l.flatten := by
  cases l <;> simp [consHead]

theorem consHead_ne_nil (c : Char) (l : List Str) : consHead c l ≠ [] := by
  cases l <;> simp [consHead]

theorem cdataPayloads_ne_nil (tail s : Str) : cdataPayloads tail s ≠ [] := by
  induction s using cdataPayloads.induct tail with
  | case1 rest ih => simp [cdataPayloads]
  | case2 c rest hne ih => rw [cdataPayloads]; exact consHead_ne_nil _ _; exact hne
  | case3 => simp [cdataPayloads]

theorem flatten_cdataPayloads (tail s : Str) :
    (cdataPayloads tail s).flatten = s ++ tail := by
  induction s using cdataPayloads.induct tail with
  | case1 rest ih => simp [cdataPayloads, flatten_consHead, ih]
  | case2 c rest hne ih =>
    rw [cdataPayloads, flatten_consHead, ih]; rfl; exact hne
  | case3 => simp [cdataPayloads]

/-! ### Escaping of attribute text -/

theorem replaceChar_append (c : Char) (rep a b : Str) :
    replaceChar c rep (a ++ b) = replaceChar c rep a ++ replaceChar c rep b := by
  induction a with
  | nil => rfl
  | cons x xs ih =>
    by_cases h : x = c <;> simp [replaceChar, h, ih]

theorem escapeXml_append (a b : Str) : escapeXml (a ++ b) = escapeXml a ++ escapeXml b := by
  simp [escapeXml, replaceChar_append]

theorem escapeXml_singleton (c : Char) : escapeXml [c] = escapeChar c := by
  by_cases h1 : c = '&'
  · subst h1; decide
  by_cases h2 : c = '<'
  · subst h2; decide
  by_cases h3 : c = '>'
  · subst h3; decide
  by_cases h4 : c = '"'
  · subst h4; decide
  by_cases h5 : c = '\''
  · subst h5; decide
  simp [escapeXml, replaceChar, escapeChar, h1, h2, h3, h4, h5]

theorem escapeXml_cons (c : Char) (s : Str) :
    escapeXml (c :: s) = escapeChar c ++ escapeXml s := by
  have h := escapeXml_append [c] s
  rw [escapeXml_singleton] at h
  simpa using h

theorem escapeXml_eq_singlePass (s : Str) : escapeXml s = escapeXmlSinglePass s := by
  induction s with
  | nil => rfl
  | cons c cs ih => rw [escapeXml_cons, ih]; simp [escapeXmlSinglePass]

theorem decodeEntities_escapeChar (c : Char) (rest : Str) :
    decodeEntities (escapeChar c ++ rest) = c :: decodeEntities rest := by
  by_cases h1 : c = '&'
  · subst h1; simp [escapeChar, decodeEntities, decodeEntitiesFrom, entityTable]
  have h1b : ('&' == c) = false := by simpa using Ne.symm h1
  by_cases h2 : c = '<'
  · subst h2; simp [escapeChar, decodeEntities, decodeEntitiesFrom, entityTable]
  by_cases h3 : c = '>'
  · subst h3; simp [escapeChar, decodeEntities, decodeEntitiesFrom, entityTable]
  by_cases h4 : c = '"'
  · subst h4; simp [escapeChar, decodeEntities, decodeEntitiesFrom, entityTable]
  by_cases h5 : c = '\''
  · subst h5; simp [escapeChar, decodeEntities, decodeEntitiesFrom, entityTable]
  simp [escapeChar, h1, h2, h3, h4, h5, decodeEntities, decodeEntitiesFrom, entityTable,
    List.find?, List.isPrefixOf, h1b]

theorem decodeEntities_escapeXml (p : Str) : decodeEntities (escapeXml p) = p := by
  induction p with
  | nil => rfl
  | cons c cs ih => rw [escapeXml_cons, decodeEntities_escapeChar, ih]

theorem not_mem_escapeChar (c x : Char) (hx : x = '<' ∨ x = '"') : x ∉ escapeChar c := by
  unfold escapeChar
  rcases hx with rfl | rfl <;> split_ifs <;> simp_all [eq_comm]

theorem not_mem_escapeXml (p : Str) (x : Char) (hx : x = '<' ∨ x = '"') : x ∉ escapeXml p := by
  induction p with
  | nil => simp [escapeXml, replaceChar]
  | cons c cs ih =>
    rw [escapeXml_cons]
    simp [not_mem_escapeChar c x hx, ih]

/-- C3: for every path string, the attribute value `escapeXml p` holds no raw
`<` and no raw `"`, and decoding the five XML entities in it gives back `p`. -/
theorem escapeXml_attribute_roundtrip (p : Str) :
    '<' ∉ escapeXml p ∧ '"' ∉ escapeXml p ∧ decodeEntities (escapeXml p) = p :=
  ⟨not_mem_escapeXml p _ (Or.inl rfl), not_mem_escapeXml p _ (Or.inr rfl),
    decodeEntities_escapeXml p⟩

/-! ### Splitting a text into CDATA sections -/

theorem cdataSections_cdataPayloads (tail s : Str) :
    "<![CDATA[".toList ++ (replaceCDATAEnd s ++ (tail ++ "]]>".toList)) =
      ((cdataPayloads tail s).map cdataSection).flatten := by
  induction s using cdataPayloads.induct tail with
  | case1 rest ih =>
    obtain ⟨p, l, hl⟩ := List.exists_cons_of_ne_nil (cdataPayloads_ne_nil tail rest)
    rw [hl] at ih
    have key : replaceCDATAEnd rest ++ (tail ++ "]]>".toList) =
        p ++ "]]>".toList ++ (l.map cdataSection).flatten :=
      by simpa [cdataSection] using ih
    simp only [replaceCDATAEnd, cdataPayloads, hl, consHead, List.map_cons, List.flatten_cons,
      cdataSection, List.append_assoc, key]
    simp
  | case2 c rest hne ih =>
    obtain ⟨p, l, hl⟩ := List.exists_cons_of_ne_nil (cdataPayloads_ne_nil tail rest)
    rw [hl] at ih
    have key : replaceCDATAEnd rest ++ (tail ++ "]]>".toList) =
        p ++ "]]>".toList ++ (l.map cdataSection).flatten :=
      by simpa [cdataSection] using ih
    rw [replaceCDATAEnd, cdataPayloads, hl]
    · simp only [consHead, List.map_cons, List.flatten_cons, cdataSection, List.cons_append,
        List.append_assoc, key]
    · exact hne
    · exact hne
  | case3 => simp [replaceCDATAEnd, cdataPayloads, cdataSection]

theorem close_not_infix_of_not_mem (t : Str) (ht : '>' ∉ t) : ¬ "]]>".toList <:+: t := by
  intro h
  exact ht (h.subset (by simp))

theorem cdataPayloads_safe (tail : Str) (ht : '>' ∉ tail) (s : Str) :
    ∀ p ∈ cdataPayloads tail s, ¬ "]]>".toList <:+: p := by
  induction s using cdataPayloads.induct tail with
  | case1 rest ih =>
    obtain ⟨q, l, hl⟩ := List.exists_cons_of_ne_nil (cdataPayloads_ne_nil tail rest)
    rw [hl] at ih
    intro p hp
    simp only [cdataPayloads, hl, consHead, List.mem_cons] at hp
    rcases hp with rfl | rfl | hp
    · decide
    · rw [List.infix_cons_iff]
      rintro (h | h)
      · simp [List.cons_prefix_cons] at h
      · exact ih q (by simp) h
    · exact ih p (by simp [hp])
  | case2 c rest hne ih =>
    obtain ⟨q, l, hl⟩ := List.exists_cons_of_ne_nil (cdataPayloads_ne_nil tail rest)
    have hflat := flatten_cdataPayloads tail rest
    rw [hl] at ih hflat
    have hq : q <+: rest ++ tail := ⟨l.flatten, by simpa using hflat⟩
    intro p hp
    rw [cdataPayloads, hl] at hp
    · simp only [consHead, List.mem_cons] at hp
      rcases hp with rfl | hp
      · rw [List.infix_cons_iff]
        rintro (h | h)
        · have h2 : "]]>".toList <+: c :: (rest ++ tail) :=
            h.trans ((List.prefix_cons_inj c).2 hq)
          simp only [String.toList, List.cons_prefix_cons] at h2
          obtain ⟨hc, h3⟩ := h2
          match rest, hne, h3 with
          | [], _, h3 =>
            exact ht ((List.IsPrefix.subset h3) (by simp))
          | [x], _, h3 =>
            simp only [List.cons_append, List.nil_append, List.cons_prefix_cons] at h3
            exact ht ((List.IsPrefix.subset h3.2) (by simp))
          | x :: y :: r, hne, h3 =>
            simp only [List.cons_append, List.cons_prefix_cons] at h3
            exact hne r hc.symm (by rw [← h3.1, ← h3.2.1])
        · exact ih q (by simp) h
      · exact ih p (by simp [hp])
    · exact hne
  | case3 =>
    intro p hp
    simp only [cdataPayloads, List.mem_singleton] at hp
    subst hp
    exact close_not_infix_of_not_mem _ ht

theorem untilCDATAEnd_payload (p r : Str) (hp : ¬ "]]>".toList <:+: p) :
    untilCDATAEnd (p ++ ("]]>".toList ++ r)) = some (p, r) := by
  induction p with
  | nil => simp [untilCDATAEnd]
  | cons c p ih =>
    have hp2 : ¬ "]]>".toList <:+: p := fun h => hp (List.infix_cons h)
    have hpre : ¬ "]]>".toList <+: c :: p := fun h => hp h.isInfix
    rw [List.cons_append, untilCDATAEnd, ih hp2]
    · rfl
    · intro rest1 hc hrest
      match p, hpre, hrest with
      | [], _, hrest => simp at hrest
      | [x], _, hrest => simp at hrest
      | x :: y :: q, hpre, hrest =>
        simp only [List.cons_append, List.cons.injEq] at hrest
        apply hpre
        rw [hc, hrest.1, hrest.2.1]
        exact ⟨q, rfl⟩

theorem parseCDATASections_sections (ps : List Str) (rest : Str)
    (hps : ∀ p ∈ ps, ¬ "]]>".toList <:+: p)
    (hrest : "<![CDATA[".toList.isPrefixOf rest = false) :
    ∀ n, ps.length ≤ n →
      parseCDATASections n ((ps.map cdataSection).flatten ++ rest) = (ps, rest) := by
  induction ps with
  | nil =>
    intro n _
    cases n with
    | zero => rfl
    | succ n =>
      simp only [parseCDATASections, List.map_nil, List.flatten_nil, List.nil_append, hrest,
        Bool.false_eq_true, if_false]
  | cons p ps ih =>
    intro n hn
    cases n with
    | zero => simp at hn
    | succ n =>
      have hp : ¬ "]]>".toList <:+: p := hps p (by simp)
      have ih2 := ih (fun q hq => hps q (by simp [hq])) n (by simpa using hn)
      have hdrop : ((List.map cdataSection (p :: ps)).flatten ++ rest).drop 9 =
          p ++ ("]]>".toList ++ ((ps.map cdataSection).flatten ++ rest)) := by
        simp [cdataSection]
      have hpre : "<![CDATA[".toList.isPrefixOf
          ((List.map cdataSection (p :: ps)).flatten ++ rest) = true := by
        simp [cdataSection, List.isPrefixOf]
      rw [parseCDATASections, hpre, hdrop, untilCDATAEnd_payload _ _ hp]
      simp [ih2]

theorem length_le_sections (ps : List Str) :
    ps.length ≤ ((ps.map cdataSection).flatten).length := by
  induction ps with
  | nil => simp
  | cons p ps ih =>
    rw [List.map_cons, List.flatten_cons, List.length_append, List.length_cons]
    have : 1 ≤ (cdataSection p).length := by simp [cdataSection]
    omega

theorem safe_consHead (c : Char) (hc : c ≠ ']') (l : List Str)
    (hl : ∀ p ∈ l, ¬ "]]>".toList <:+: p) :
    ∀ p ∈ consHead c l, ¬ "]]>".toList <:+: p := by
  cases l with
  | nil =>
    intro p hp
    simp only [consHead, List.mem_singleton] at hp
    subst hp
    rw [List.infix_cons_iff]
    rintro (h | h)
    · simp [List.cons_prefix_cons] at h
    · simp at h
  | cons q l =>
    intro p hp
    simp only [consHead, List.mem_cons] at hp
    rcases hp with rfl | hp
    · rw [List.infix_cons_iff]
      rintro (h | h)
      · simp only [String.toList, List.cons_prefix_cons] at h
        exact hc h.1.symm
      · exact hl q (by simp) h
    · exact hl p (by simp [hp])

/-- The payloads of the sections `splitAndWrapCDATA s` consists of. -/
theorem splitAndWrapCDATA_eq (s : Str) :
    splitAndWrapCDATA s =
      ((consHead '\n' (cdataPayloads "\n    ".toList s)).map cdataSection).flatten := by
  have h := cdataSections_cdataPayloads "\n    ".toList s
  obtain ⟨p, l, hl⟩ := List.exists_cons_of_ne_nil (cdataPayloads_ne_nil "\n    ".toList s)
  rw [hl] at h
  have key : replaceCDATAEnd s ++ ("\n    ".toList ++ "]]>".toList) =
      p ++ "]]>".toList ++ (l.map cdataSection).flatten := by
    simpa [cdataSection] using h
  rw [hl]
  simp only [splitAndWrapCDATA, cdataTemplate, consHead, List.map_cons, List.flatten_cons,
    cdataSection]
  have e1 : "<![CDATA[\n".toList = "<![CDATA[".toList ++ ['\n'] := by decide
  have e2 : "\n    ]]>".toList = "\n    ".toList ++ "]]>".toList := by decide
  rw [e1, e2]
  simp only [List.append_assoc, List.cons_append, List.nil_append]
  rw [key]
  simp

theorem splitAndWrapCDATA_payloads (s : Str) :
    ∃ payloads : List Str, payloads ≠ [] ∧
      splitAndWrapCDATA s = (payloads.map cdataSection).flatten ∧
      (∀ p ∈ payloads, ¬ "]]>".toList <:+: p) ∧
      payloads.flatten = "\n".toList ++ s ++ "\n    ".toList := by
  refine ⟨consHead '\n' (cdataPayloads "\n    ".toList s), consHead_ne_nil _ _,
    splitAndWrapCDATA_eq s,
    safe_consHead '\n' (by decide) _ (cdataPayloads_safe _ (by decide) s), ?_⟩
  rw [flatten_consHead, flatten_cdataPayloads]; rfl

/-- C2: for every string, `splitAndWrapCDATA` gives one or more CDATA sections
laid end to end, no payload of which contains `]]>`, and the payloads put
together are a line feed, the string, and a line feed with four spaces; a
reader that ends each section at the first `]]>` reads exactly these payloads
and nothing is left over. -/
theorem splitAndWrapCDATA_sections (s : Str) :
    ∃ payloads : List Str, payloads ≠ [] ∧
      splitAndWrapCDATA s = (payloads.map cdataSection).flatten ∧
      (∀ p ∈ payloads, ¬ "]]>".toList <:+: p) ∧
      payloads.flatten = "\n".toList ++ s ++ "\n    ".toList ∧
      parseCDATASections (splitAndWrapCDATA s).length (splitAndWrapCDATA s) = (payloads, []) := by
  obtain ⟨ps, hne, heq, hsafe, hflat⟩ := splitAndWrapCDATA_payloads s
  refine ⟨ps, hne, heq, hsafe, hflat, ?_⟩
  have h := parseCDATASections_sections ps [] hsafe (by decide)
    (splitAndWrapCDATA s).length (by rw [heq]; exact length_le_sections _)
  rw [heq] at h ⊢
  simpa using h

/-! ### The `<file>` element and its reading -/

theorem includes_eq_true_iff (s p : Str) : includes s p = true ↔ p <:+: s := by
  induction s with
  | nil => cases p <;> simp [includes]
  | cons c cs ih =>
    rw [includes, Bool.or_eq_true, ih, List.infix_cons_iff, List.isPrefixOf_iff_prefix]

theorem trim_ne_nil (s : Str) (c : Char) (hc : c ∈ s) (hw : isWhiteSpace c = false) :
    trim s ≠ [] := by
  have h1 : c ∈ s.dropWhile isWhiteSpace := by
    have h := List.takeWhile_append_dropWhile isWhiteSpace s
    rw [← h] at hc
    rcases List.mem_append.1 hc with h2 | h2
    · have := List.mem_takeWhile_imp h2
      simp [hw] at this
    · exact h2
  unfold trim
  intro h
  rw [List.reverse_eq_nil_iff, List.dropWhile_eq_nil_iff] at h
  have := h c (by simpa using h1)
  simp [hw] at this

theorem trim_ne_nil_of_includes (s : Str) (h : includes s "]]>".toList = true) :
    trim s ≠ [] := by
  rw [includes_eq_true_iff] at h
  exact trim_ne_nil s ']' (h.subset (by simp)) (by decide)

theorem appendFile_eq (xml : Str) (file : TextFileRecord) :
    appendFile xml file = xml ++ fileElement file := by
  simp [appendFile, fileElement]

theorem foldl_appendFile (files : List TextFileRecord) (xml : Str) :
    files.foldl appendFile xml = xml ++ (files.map fileElement).flatten := by
  induction files generalizing xml with
  | nil => simp
  | cons f fs ih => rw [List.foldl_cons, ih, appendFile_eq]; simp

/-- The document is the prolog, `<files>`, the elements of the text records in
order, and `</files>`. -/
theorem generateXMLOutput_eq (agg : AggregateResult) :
    generateXMLOutput agg =
      "<?xml version=\"1.0\" encoding=\"UTF-8\"?>\n<files>\n".toList ++
        (agg.textFiles.map fileElement).flatten ++ "</files>\n".toList := by
  simp [generateXMLOutput, foldl_appendFile]

theorem fileElement_eq (file : TextFileRecord) :
    fileElement file = "  <file path=\"".toList ++ (escapeXml file.path ++
      ("\">".toList ++ (fileBody file.content ++ "</file>\n".toList))) := by
  simp [fileElement, appendFile]

/-- Reading back an element whose body is a run of CDATA sections with
delimiter-free payloads gives the record's path and the joined payloads. -/
theorem parseFileElement_sections (file : TextFileRecord) (ps : List Str)
    (hbody : fileBody file.content = (ps.map cdataSection).flatten)
    (hps : ∀ p ∈ ps, ¬ "]]>".toList <:+: p) :
    parseFileElement (fileElement file) = some (file.path, ps.flatten) := by
  have hq : ∀ a ∈ escapeXml file.path, (a != '"') = true := by
    intro a ha
    have : a ≠ '"' := fun h => not_mem_escapeXml file.path '"' (Or.inr rfl) (h ▸ ha)
    simpa using this
  have hdrop : (fileElement file).drop 14 = escapeXml file.path ++
      ("\">".toList ++ (fileBody file.content ++ "</file>\n".toList)) := by
    rw [fileElement_eq]; rfl
  have hpre : "  <file path=\"".toList.isPrefixOf (fileElement file) = true := by
    rw [fileElement_eq, List.isPrefixOf_iff_prefix]; exact List.prefix_append _ _
  have htake : (escapeXml file.path ++
      ("\">".toList ++ (fileBody file.content ++ "</file>\n".toList))).takeWhile
        (fun c => c != '"') = escapeXml file.path := by
    rw [List.takeWhile_append_of_pos hq]; simp
  have hdw : (escapeXml file.path ++
      ("\">".toList ++ (fileBody file.content ++ "</file>\n".toList))).dropWhile
        (fun c => c != '"') = "\">".toList ++ (fileBody file.content ++ "</file>\n".toList) := by
    rw [List.dropWhile_append_of_pos hq]; simp
  have hparse := parseCDATASections_sections ps "</file>\n".toList hps (by decide)
    (fileBody file.content ++ "</file>\n".toList).length (by
      rw [hbody, List.length_append]
      exact le_trans (length_le_sections ps) (Nat.le_add_right _ _))
  rw [← hbody] at hparse
  unfold parseFileElement
  simp only [hpre, hdrop, htake, hdw, if_true]
  have hpre2 : "\">".toList.isPrefixOf
      ("\">".toList ++ (fileBody file.content ++ "</file>\n".toList)) = true := by
    rw [List.isPrefixOf_iff_prefix]; exact List.prefix_append _ _
  have hdrop2 : ("\">".toList ++ (fileBody file.content ++ "</file>\n".toList)).drop 2 =
      fileBody file.content ++ "</file>\n".toList := rfl
  simp only [hpre2, hdrop2, hparse, if_true, decodeEntities_escapeXml]

theorem fileBody_of_includes (content : Str) (h : includes content "]]>".toList = true) :
    fileBody content = splitAndWrapCDATA (indentFileContent content) := by
  unfold fileBody
  rw [if_pos (trim_ne_nil_of_includes content h)]
  simp only [h, if_true]

/-- C1, as the code has it: for every text record whose content contains
`]]>`, the element `generateXMLOutput` emits for it is part of the document,
and reading that element back (its path attribute decoded, the payloads of its
CDATA sections joined) gives the record's path and, as content, a line feed,
the content with every line indented by four spaces, and a line feed with four
spaces: every `]]>` of the content is still in it, unbroken. -/
theorem fileElement_roundtrip_indented (agg : AggregateResult) (file : TextFileRecord)
    (hfile : file ∈ agg.textFiles) (h : includes file.content "]]>".toList = true) :
    (∃ before after, generateXMLOutput agg = before ++ fileElement file ++ after) ∧
    parseFileElement (fileElement file) =
      some (file.path,
        "\n".toList ++ indentFileContent file.content ++ "\n    ".toList) := by
  constructor
  · obtain ⟨l1, l2, hl⟩ := List.append_of_mem hfile
    refine ⟨"<?xml version=\"1.0\" encoding=\"UTF-8\"?>\n<files>\n".toList ++
      (l1.map fileElement).flatten, (l2.map fileElement).flatten ++ "</files>\n".toList, ?_⟩
    rw [generateXMLOutput_eq, hl]
    simp
  · obtain ⟨ps, _, heq, hsafe, hflat⟩ :=
      splitAndWrapCDATA_payloads (indentFileContent file.content)
    rw [parseFileElement_sections file ps (by rw [fileBody_of_includes _ h, heq]) hsafe, hflat]

/-- C1: the indented round trip at the record with content `a]]>b`. -/
theorem fileElement_roundtrip_indented_witness :
    (delimiterRecord ∈ [delimiterRecord] ∧
      includes delimiterRecord.content "]]>".toList = true) ∧
    ((∃ before after, generateXMLOutput ⟨[delimiterRecord], [], [], 1, 1⟩ =
        before ++ fileElement delimiterRecord ++ after) ∧
      parseFileElement (fileElement delimiterRecord) =
        some (delimiterRecord.path,
          "\n".toList ++ indentFileContent delimiterRecord.content ++ "\n    ".toList)) :=
  ⟨⟨by decide, by decide⟩,
    fileElement_roundtrip_indented ⟨[delimiterRecord], [], [], 1, 1⟩ delimiterRecord
      (by decide) (by decide)⟩

/-- C1 as stated fails: for the record with content `a]]>b`, the element that
`generateXMLOutput` emits reads back as a line feed, four spaces, `a]]>b`, a
line feed and four spaces, which is not the content `a]]>b`. -/
theorem fileElement_roundtrip_counterexample :
    generateXMLOutput ⟨[delimiterRecord], [], [], 1, 1⟩ =
      "<?xml version=\"1.0\" encoding=\"UTF-8\"?>\n<files>\n".toList ++
        fileElement delimiterRecord ++ "</files>\n".toList ∧
    includes delimiterRecord.content "]]>".toList = true ∧
    (parseFileElement (fileElement delimiterRecord)).map Prod.snd =
      some "\n    a]]>b\n    ".toList ∧
    (parseFileElement (fileElement delimiterRecord)).map Prod.snd ≠
      some delimiterRecord.content := by
  decide

/-! ### Empty content -/

/-- C4 at an empty file: the document `generateXMLOutput` gives for the single
record of an empty file has the element `<file path="empty.txt"></file>` with
nothing inside, and `<![CDATA[` occurs nowhere in the document. -/
theorem generateXMLOutput_empty_content_no_block :
    generateXMLOutput ⟨[emptyRecord], [], [], 1, 1⟩ =
      ("<?xml version=\"1.0\" encoding=\"UTF-8\"?>\n<files>\n" ++
        "  <file path=\"empty.txt\"></file>\n</files>\n").toList ∧
    fileBody emptyRecord.content = [] ∧
    includes (generateXMLOutput ⟨[emptyRecord], [], [], 1, 1⟩) "<![CDATA[".toList = false := by
  decide

/-! ### Filtering by ignore patterns -/

theorem any_filter_and (b q : Str → Bool) (l : List Str) :
    (l.filter b).any q = l.any (fun p => b p && q p) := by
  induction l with
  | nil => rfl
  | cons p ps ih =>
    cases h : b p <;> simp [List.filter_cons, h, ih]

theorem any_positive (mm : MatchCall) (patterns : List Str) (file : Str) :
    (patterns.filter (fun p => !startsWith p "!".toList)).any (fun pattern => mm file pattern) =
      patterns.any (fun p => !startsWith p "!".toList && mm file p) :=
  any_filter_and (fun p => !startsWith p "!".toList) (fun pattern => mm file pattern) patterns

theorem any_negative (mm : MatchCall) (patterns : List Str) (file : Str) :
    ((patterns.filter (fun p => startsWith p "!".toList)).map (fun p => p.drop 1)).any
        (fun pattern => mm file pattern) =
      patterns.any (fun p => startsWith p "!".toList && mm file (p.drop 1)) := by
  rw [List.any_map]
  exact any_filter_and (fun p => startsWith p "!".toList)
    ((fun pattern => mm file pattern) ∘ fun p => p.drop 1) patterns

theorem shouldIgnore_eq_droppedByRules (mm : MatchCall) (patterns : List Str) (file : Str) :
    shouldIgnore mm (patterns.filter (fun p => !startsWith p "!".toList))
        ((patterns.filter (fun p => startsWith p "!".toList)).map (fun p => p.drop 1)) file =
      droppedByRules mm patterns file := by
  unfold shouldIgnore droppedByRules
  rw [any_positive, any_negative]
  cases patterns.any (fun p => !startsWith p "!".toList && mm file p) <;>
    cases patterns.any (fun p => startsWith p "!".toList && mm file (p.drop 1)) <;> rfl

theorem droppedByRules_perm (mm : MatchCall) (file : Str) {l1 l2 : List Str}
    (h : l1.Perm l2) : droppedByRules mm l1 file = droppedByRules mm l2 file := by
  unfold droppedByRules
  have key : ∀ q : Str → Bool, l1.any q = l2.any q := by
    intro q
    rw [Bool.eq_iff_iff, List.any_eq_true, List.any_eq_true]
    constructor
    · rintro ⟨x, hx, hq⟩; exact ⟨x, h.mem_iff.1 hx, hq⟩
    · rintro ⟨x, hx, hq⟩; exact ⟨x, h.mem_iff.2 hx, hq⟩
  rw [key, key]

theorem droppedByRules_nil (mm : MatchCall) (file : Str) :
    droppedByRules mm [] file = false := rfl

theorem filterWithPatterns_eq_filter (P : PathModule) (mm : MatchCall)
    (patterns files : List Str) (rootDir : Str)
    (hpaths : ∀ f ∈ files, P.resolve rootDir (P.relative rootDir f) = f) :
    filterWithPatterns P mm patterns files rootDir =
      files.filter (fun f => !droppedByRules mm patterns (P.relative rootDir f)) := by
  unfold filterWithPatterns
  by_cases h0 : patterns.length = 0
  · have : patterns = [] := List.length_eq_zero.1 h0
    subst this
    simp [droppedByRules_nil]
  · rw [if_neg h0]
    simp only [shouldIgnore_eq_droppedByRules]
    clear h0
    induction files with
    | nil => rfl
    | cons f fs ih =>
      have ih2 := ih (fun g hg => hpaths g (by simp [hg]))
      have hf := hpaths f (by simp)
      simp only [List.map_cons, List.filter_cons]
      cases hd : droppedByRules mm patterns (P.relative rootDir f)
      · simp only [Bool.not_false, if_true, List.map_cons, hf]
        exact congrArg _ ih2
      · simp only [Bool.not_true, Bool.false_eq_true, if_false]
        exact ih2

/-- C5: for every list of ignore patterns, `filterFiles` drops a path exactly
when some pattern without a leading `!` matches its relative path and no
pattern with a leading `!`, taken without it, does; hence the result is the
same for every reordering of the pattern list. The paths are those discovery
gives, which `path.resolve` rebuilds from their relative form. -/
theorem filterFiles_negation_overrides (P : PathModule) (mm : MatchCall)
    (patterns files : List Str) (rootDir : Str)
    (hpaths : ∀ f ∈ files, P.resolve rootDir (P.relative rootDir f) = f) :
    filterWithPatterns P mm patterns files rootDir =
        files.filter (fun f => !droppedByRules mm patterns (P.relative rootDir f)) ∧
      (∀ reordered : List Str, reordered.Perm patterns →
        filterWithPatterns P mm reordered files rootDir =
          filterWithPatterns P mm patterns files rootDir) ∧
      (∀ fs : FileSystem,
        parseGitignore fs (P.join rootDir ".gitignore".toList) = patterns →
          filterFiles P fs mm files rootDir =
            files.filter (fun f => !droppedByRules mm patterns (P.relative rootDir f))) := by
  refine ⟨filterWithPatterns_eq_filter P mm patterns files rootDir hpaths, ?_, ?_⟩
  · intro reordered hperm
    rw [filterWithPatterns_eq_filter P mm reordered files rootDir hpaths,
      filterWithPatterns_eq_filter P mm patterns files rootDir hpaths]
    congr 1
    funext f
    rw [droppedByRules_perm mm _ hperm]
  · intro fs hfs
    unfold filterFiles
    simp only [hfs]
    exact filterWithPatterns_eq_filter P mm patterns files rootDir hpaths

/-- C5 at the patterns `!keep.txt`, `*.txt` (negation declared first) and the
paths `/root/keep.txt`, `/root/other.txt`. -/
theorem filterFiles_negation_overrides_witness :
    (∀ f ∈ ["/root/keep.txt".toList, "/root/other.txt".toList],
        posixPath.resolve "/root".toList (posixPath.relative "/root".toList f) = f) ∧
      (filterWithPatterns posixPath minimatch ["!keep.txt".toList, "*.txt".toList]
          ["/root/keep.txt".toList, "/root/other.txt".toList] "/root".toList =
        ["/root/keep.txt".toList, "/root/other.txt".toList].filter (fun f =>
          !droppedByRules minimatch ["!keep.txt".toList, "*.txt".toList]
            (posixPath.relative "/root".toList f))) ∧
      filterWithPatterns posixPath minimatch ["!keep.txt".toList, "*.txt".toList]
          ["/root/keep.txt".toList, "/root/other.txt".toList] "/root".toList =
        ["/root/keep.txt".toList] :=
  ⟨by decide,
    (filterFiles_negation_overrides posixPath minimatch ["!keep.txt".toList, "*.txt".toList]
      ["/root/keep.txt".toList, "/root/other.txt".toList] "/root".toList (by decide)).1,
    by decide⟩

/-! ### Aggregation -/

theorem processFile_cases (P : PathModule) (fs : FileSystem) (rootDir : Str)
    (r : AggregateResult) (f : Str) :
    (∃ t : TextFileRecord, t.path = P.relative rootDir f ∧
        processFile P fs rootDir r f =
          { r with textFiles := r.textFiles ++ [t], processedFiles := r.processedFiles + 1 }) ∨
    (∃ b : BinaryFileRecord, b.path = P.relative rootDir f ∧
        processFile P fs rootDir r f =
          { r with binaryFiles := r.binaryFiles ++ [b], processedFiles := r.processedFiles + 1 }) ∨
    (∃ e : ErrorRecord, e.path = P.relative rootDir f ∧
        processFile P fs rootDir r f =
          { r with errors := r.errors ++ [e], processedFiles := r.processedFiles + 1 }) := by
  unfold processFile tryProcessFile
  cases hb : isBinaryFile P fs f
  · cases hr : fs.readFileUtf8 f with
    | error m =>
      right; right
      exact ⟨⟨P.relative rootDir f, f, m⟩, rfl, by simp⟩
    | ok content =>
      left
      exact ⟨⟨P.relative rootDir f, f, content, jsLength content, (splitLines content).length⟩,
        rfl, by simp⟩
  · cases hs : fs.statSize f with
    | error m =>
      right; right
      exact ⟨⟨P.relative rootDir f, f, m⟩, rfl, by simp⟩
    | ok size =>
      right; left
      exact ⟨⟨P.relative rootDir f, f, size⟩, rfl, by simp⟩

theorem processFile_counters (P : PathModule) (fs : FileSystem) (rootDir : Str)
    (r : AggregateResult) (f : Str) :
    (processFile P fs rootDir r f).processedFiles = r.processedFiles + 1 ∧
      (processFile P fs rootDir r f).totalFiles = r.totalFiles := by
  rcases processFile_cases P fs rootDir r f with ⟨t, _, h⟩ | ⟨b, _, h⟩ | ⟨e, _, h⟩ <;>
    rw [h] <;> exact ⟨rfl, rfl⟩

theorem processFile_recordedPaths (P : PathModule) (fs : FileSystem) (rootDir : Str)
    (r : AggregateResult) (f : Str) :
    (recordedPaths (processFile P fs rootDir r f)).Perm
      (recordedPaths r ++ [P.relative rootDir f]) := by
  rcases processFile_cases P fs rootDir r f with ⟨t, ht, h⟩ | ⟨b, hb, h⟩ | ⟨e, he, h⟩
  · rw [h]
    simp only [recordedPaths, List.map_append, List.map_cons, List.map_nil, ht,
      List.append_assoc]
    refine List.Perm.append_left _ ?_
    exact (List.perm_append_comm).trans (by rw [List.append_assoc])
  · rw [h]
    simp only [recordedPaths, List.map_append, List.map_cons, List.map_nil, hb,
      List.append_assoc]
    refine List.Perm.append_left _ (List.Perm.append_left _ ?_)
    exact List.perm_append_comm
  · rw [h]
    simp only [recordedPaths, List.map_append, List.map_cons, List.map_nil, he,
      List.append_assoc]
    exact List.Perm.refl _

theorem foldl_processFile_counters (P : PathModule) (fs : FileSystem) (rootDir : Str)
    (files : List Str) (r : AggregateResult) :
    (files.foldl (processFile P fs rootDir) r).processedFiles =
        r.processedFiles + files.length ∧
      (files.foldl (processFile P fs rootDir) r).totalFiles = r.totalFiles := by
  induction files generalizing r with
  | nil => exact ⟨rfl, rfl⟩
  | cons f fs' ih =>
    obtain ⟨h1, h2⟩ := ih (processFile P fs rootDir r f)
    obtain ⟨h3, h4⟩ := processFile_counters P fs rootDir r f
    rw [List.foldl_cons, h1, h2, h3, h4, List.length_cons]
    exact ⟨by omega, rfl⟩

theorem foldl_processFile_recordedPaths (P : PathModule) (fs : FileSystem) (rootDir : Str)
    (files : List Str) (r : AggregateResult) :
    (recordedPaths (files.foldl (processFile P fs rootDir) r)).Perm
      (recordedPaths r ++ files.map (fun f => P.relative rootDir f)) := by
  induction files generalizing r with
  | nil => simp
  | cons f fs' ih =>
    rw [List.foldl_cons, List.map_cons]
    refine (ih (processFile P fs rootDir r f)).trans ?_
    have h := (processFile_recordedPaths P fs rootDir r f).append_right
      (fs'.map (fun f => P.relative rootDir f))
    simpa using h

theorem aggregate_recordedPaths (P : PathModule) (fs : FileSystem) (files : List Str)
    (rootDir : Str) :
    (recordedPaths (aggregateFileContents P fs files rootDir)).Perm
      (files.map (fun f => P.relative rootDir f)) := by
  have h := foldl_processFile_recordedPaths P fs rootDir files
    { textFiles := [], binaryFiles := [], errors := [],
      totalFiles := files.length, processedFiles := 0 }
  simpa [aggregateFileContents, recordedPaths] using h

/-- C7: for every candidate list with pairwise distinct relative paths and
whatever the file system answers for each file, after `aggregateFileContents`
the relative path of each candidate is the path of a record in exactly one of
`textFiles`, `binaryFiles` and `errors`, no path is recorded twice, and the
three lists together have as many records as there are candidates. -/
theorem aggregate_partition (P : PathModule) (fs : FileSystem) (files : List Str)
    (rootDir : Str) (hdistinct : (files.map (fun f => P.relative rootDir f)).Nodup) :
    (∀ f ∈ files,
      let rel := P.relative rootDir f
      let r := aggregateFileContents P fs files rootDir
      (rel ∈ r.textFiles.map (fun t => t.path) ∧ rel ∉ r.binaryFiles.map (fun b => b.path) ∧
          rel ∉ r.errors.map (fun e => e.path)) ∨
        (rel ∉ r.textFiles.map (fun t => t.path) ∧ rel ∈ r.binaryFiles.map (fun b => b.path) ∧
          rel ∉ r.errors.map (fun e => e.path)) ∨
        (rel ∉ r.textFiles.map (fun t => t.path) ∧ rel ∉ r.binaryFiles.map (fun b => b.path) ∧
          rel ∈ r.errors.map (fun e => e.path))) ∧
      (recordedPaths (aggregateFileContents P fs files rootDir)).Nodup ∧
      (aggregateFileContents P fs files rootDir).textFiles.length +
          (aggregateFileContents P fs files rootDir).binaryFiles.length +
          (aggregateFileContents P fs files rootDir).errors.length = files.length := by
  have hperm := aggregate_recordedPaths P fs files rootDir
  have hnodup : (recordedPaths (aggregateFileContents P fs files rootDir)).Nodup :=
    hperm.nodup_iff.2 hdistinct
  refine ⟨?_, hnodup, ?_⟩
  · intro f hf
    have hmem : P.relative rootDir f ∈ recordedPaths (aggregateFileContents P fs files rootDir) :=
      hperm.mem_iff.2 (List.mem_map.2 ⟨f, hf, rfl⟩)
    unfold recordedPaths at hmem hnodup
    rw [List.nodup_append] at hnodup
    obtain ⟨h12, _, hd3⟩ := hnodup
    rw [List.nodup_append] at h12
    obtain ⟨_, _, hd12⟩ := h12
    intro rel r
    rcases List.mem_append.1 hmem with h | h
    · rcases List.mem_append.1 h with h1 | h2
      · left
        exact ⟨h1, fun hb => hd12 h1 hb, fun he => hd3 (List.mem_append.2 (Or.inl h1)) he⟩
      · right; left
        exact ⟨fun ht => hd12 ht h2, h2, fun he => hd3 (List.mem_append.2 (Or.inr h2)) he⟩
    · right; right
      exact ⟨fun ht => hd3 (List.mem_append.2 (Or.inl ht)) h,
        fun hb => hd3 (List.mem_append.2 (Or.inr hb)) h, h⟩
  · have hlen := hperm.length_eq
    simp only [recordedPaths, List.length_append, List.length_map] at hlen
    exact hlen

/-- C7 at a root with a text file, a binary file and a missing file. -/
theorem aggregate_partition_witness :
    (["/root/a.txt".toList, "/root/img.png".toList, "/root/gone".toList].map
        (fun f => posixPath.relative "/root".toList f)).Nodup ∧
      (recordedPaths (aggregateFileContents posixPath mixedRoot
          ["/root/a.txt".toList, "/root/img.png".toList, "/root/gone".toList]
          "/root".toList)).Nodup ∧
      (aggregateFileContents posixPath mixedRoot
          ["/root/a.txt".toList, "/root/img.png".toList, "/root/gone".toList]
          "/root".toList).textFiles.length +
        (aggregateFileContents posixPath mixedRoot
          ["/root/a.txt".toList, "/root/img.png".toList, "/root/gone".toList]
          "/root".toList).binaryFiles.length +
        (aggregateFileContents posixPath mixedRoot
          ["/root/a.txt".toList, "/root/img.png".toList, "/root/gone".toList]
          "/root".toList).errors.length = 3 :=
  ⟨by decide,
    (aggregate_partition posixPath mixedRoot
      ["/root/a.txt".toList, "/root/img.png".toList, "/root/gone".toList]
      "/root".toList (by decide)).2⟩

/-- C8: for every candidate list and whatever the file system answers for each
file, the result of `aggregateFileContents` has `processedFiles` equal to
`totalFiles`, both the number of candidates; every iteration of the loop,
successful or failed, adds exactly one to `processedFiles`. -/
theorem aggregate_processed_eq_total (P : PathModule) (fs : FileSystem) (files : List Str)
    (rootDir : Str) :
    (aggregateFileContents P fs files rootDir).processedFiles =
        (aggregateFileContents P fs files rootDir).totalFiles ∧
      (aggregateFileContents P fs files rootDir).totalFiles = files.length ∧
      (∀ (results : AggregateResult) (filePath : Str),
        (processFile P fs rootDir results filePath).processedFiles =
            results.processedFiles + 1 ∧
          (processFile P fs rootDir results filePath).totalFiles = results.totalFiles) := by
  have h := foldl_processFile_counters P fs rootDir files
    { textFiles := [], binaryFiles := [], errors := [],
      totalFiles := files.length, processedFiles := 0 }
  obtain ⟨h1, h2⟩ := h
  refine ⟨?_, ?_, fun results filePath => processFile_counters P fs rootDir results filePath⟩
  · exact h1.trans ((Nat.zero_add _).trans h2.symm)
  · exact h2

/-! ### Discovery and filtering on concrete roots -/

/-- C6 at the root with the ignore lines `*.txt` and `!keep.txt`:
`discoverFiles` hands both lines to glob as ignore patterns, so `keep.txt` is
already missing from what it returns, and after `filterFiles` the candidates
are the ignore file alone; `filterFiles` run on the two paths themselves keeps
`keep.txt` and drops `other.txt`. -/
theorem discover_then_filter_loses_keep :
    discoverFiles posixPath keepRoot (globModel keepTree) "/root".toList =
        ["/root/.gitignore".toList] ∧
      filterFiles posixPath keepRoot minimatch
          (discoverFiles posixPath keepRoot (globModel keepTree) "/root".toList)
          "/root".toList = ["/root/.gitignore".toList] ∧
      filterFiles posixPath keepRoot minimatch
          ["/root/keep.txt".toList, "/root/other.txt".toList] "/root".toList =
        ["/root/keep.txt".toList] := by
  decide

/-- C9: the ignore line `build/` is loaded as the pattern `build/**`, and with
it `filterFiles` drops `build/x` and `build/x/y` and keeps `builder/x`. -/
theorem build_directory_rule :
    parseGitignore buildRoot (posixPath.join "/root".toList ".gitignore".toList) =
        ["build/**".toList] ∧
      filterFiles posixPath buildRoot minimatch
          ["/root/build/x".toList, "/root/build/x/y".toList, "/root/builder/x".toList]
          "/root".toList = ["/root/builder/x".toList] := by
  decide

/-- C10 at the single rule `*.txt`: `filterFiles` drops `a.txt` and keeps
`sub/a.txt`, the pattern being matched against the whole relative path; the
discovery that runs before it leaves `sub/a.txt` in as well. -/
theorem unanchored_pattern_keeps_nested :
    parseGitignore txtRoot (posixPath.join "/root".toList ".gitignore".toList) =
        ["*.txt".toList] ∧
      minimatch "a.txt".toList "*.txt".toList = true ∧
      minimatch "sub/a.txt".toList "*.txt".toList = false ∧
      filterFiles posixPath txtRoot minimatch
          ["/root/a.txt".toList, "/root/sub/a.txt".toList] "/root".toList =
        ["/root/sub/a.txt".toList] ∧
      discoverFiles posixPath txtRoot
          (globModel [".gitignore".toList, "a.txt".toList, "sub/a.txt".toList])
          "/root".toList =
        ["/root/.gitignore".toList, "/root/sub/a.txt".toList] := by
  decide

/-! ### The document as a whole -/

/-- C14: the document depends only on the text records: it is the prolog and
`<files>`, then one `<file path="…">…</file>` element for each text record in
order, then `</files>`; two results with the same text records, whatever their
binary and error records, give the same document. -/
theorem generateXMLOutput_structure (agg : AggregateResult) :
    generateXMLOutput agg =
        "<?xml version=\"1.0\" encoding=\"UTF-8\"?>\n<files>\n".toList ++
          (agg.textFiles.map fileElement).flatten ++ "</files>\n".toList ∧
      (∀ file : TextFileRecord,
        fileElement file = "  <file path=\"".toList ++ (escapeXml file.path ++
          ("\">".toList ++ (fileBody file.content ++ "</file>\n".toList)))) ∧
      (∀ other : AggregateResult, other.textFiles = agg.textFiles →
        generateXMLOutput other = generateXMLOutput agg) := by
  refine ⟨generateXMLOutput_eq agg, fileElement_eq, ?_⟩
  intro other h
  rw [generateXMLOutput_eq, generateXMLOutput_eq, h]

/-- C18: the five replacements of `escapeXml`, made one after the other with
the ampersand first, give what replacing every character on its own in one
pass gives; were the ampersand replaced after `<`, the `&` of `&lt;` would be
replaced again. -/
theorem escapeXml_single_pass (s : Str) :
    escapeXml s = escapeXmlSinglePass s ∧
      (∀ (c : Char) (rest : Str), escapeXml (c :: rest) = escapeChar c ++ escapeXml rest) ∧
      replaceChar '&' "&amp;".toList (replaceChar '<' "&lt;".toList "<".toList) =
        "&amp;lt;".toList ∧
      escapeXml "<".toList = "&lt;".toList :=
  ⟨escapeXml_eq_singlePass s, escapeXml_cons, by decide, by decide⟩

/-- C20: for candidates that `path.resolve` rebuilds from their relative form,
the result of `filterFiles` is a sub-sequence of the candidates, in their
order, and it is the candidate list itself when no pattern is loaded. -/
theorem filterFiles_sublist (P : PathModule) (fs : FileSystem) (mm : MatchCall)
    (files : List Str) (rootDir : Str)
    (hpaths : ∀ f ∈ files, P.resolve rootDir (P.relative rootDir f) = f) :
    (filterFiles P fs mm files rootDir).Sublist files ∧
      (parseGitignore fs (P.join rootDir ".gitignore".toList) = [] →
        filterFiles P fs mm files rootDir = files) := by
  constructor
  · unfold filterFiles
    simp only []
    rw [filterWithPatterns_eq_filter P mm _ files rootDir hpaths]
    exact List.filter_sublist _
  · intro h
    unfold filterFiles
    simp only [h]
    rfl

/-- C20 at the root with the lines `*.txt` and `!keep.txt` and the candidates
`keep.txt` and `other.txt`, and at a root without an ignore file. -/
theorem filterFiles_sublist_witness :
    (∀ f ∈ ["/root/keep.txt".toList, "/root/other.txt".toList],
        posixPath.resolve "/root".toList (posixPath.relative "/root".toList f) = f) ∧
      ((filterFiles posixPath keepRoot minimatch
            ["/root/keep.txt".toList, "/root/other.txt".toList] "/root".toList).Sublist
          ["/root/keep.txt".toList, "/root/other.txt".toList] ∧
        (parseGitignore keepRoot (posixPath.join "/root".toList ".gitignore".toList) = [] →
          filterFiles posixPath keepRoot minimatch
            ["/root/keep.txt".toList, "/root/other.txt".toList] "/root".toList =
          ["/root/keep.txt".toList, "/root/other.txt".toList])) ∧
      filterFiles posixPath bareRoot minimatch
          ["/root/keep.txt".toList, "/root/other.txt".toList] "/root".toList =
        ["/root/keep.txt".toList, "/root/other.txt".toList] :=
  ⟨by decide,
    filterFiles_sublist posixPath keepRoot minimatch
      ["/root/keep.txt".toList, "/root/other.txt".toList] "/root".toList (by decide),
    by decide⟩

/-! ### Classification -/

theorem contains_zero_take (l : List Nat) (n : Nat) :
    (l.take n).contains 0 = true ↔ ∃ i, i < n ∧ l[i]? = some 0 := by
  induction l generalizing n with
  | nil => simp
  | cons x xs ih =>
    cases n with
    | zero => simp
    | succ n =>
      rw [List.take_succ_cons, List.contains_cons, Bool.or_eq_true, ih]
      constructor
      · rintro (h | ⟨i, hi, hx⟩)
        · have hx0 : 0 = x := by simpa using h
          exact ⟨0, Nat.succ_pos n, by simp [← hx0]⟩
        · exact ⟨i + 1, Nat.succ_lt_succ hi, by simpa using hx⟩
      · rintro ⟨i, hi, hx⟩
        cases i with
        | zero =>
          left
          have hx0 : x = 0 := by simpa using hx
          simp [hx0]
        | succ i => right; exact ⟨i, Nat.lt_of_succ_lt_succ hi, by simpa using hx⟩

theorem isBinaryFile_eq_sample (P : PathModule) (fs : FileSystem) (filePath : Str)
    (size : Nat) (buffer : List Nat)
    (hext : binaryExtensions.contains (toLowerCase (P.extname filePath)) = false)
    (hstat : fs.statSize filePath = .ok size) (hsize : size ≠ 0)
    (hread : fs.readFileBytes filePath = .ok buffer) :
    isBinaryFile P fs filePath = (buffer.take (min 1024 size)).contains 0 := by
  unfold isBinaryFile
  simp only [hext, hstat, hread, hsize, if_false, Bool.false_eq_true]

/-- C11: for a file whose extension is not a known binary one, whose `stat`
gives a size other than zero and whose bytes can be read, `isBinaryFile` is
true exactly when a byte 0 is among the first `min(1024, size)` bytes; so it is
false when the first 1024 bytes have no byte 0, whatever comes after them. -/
theorem isBinaryFile_sample (P : PathModule) (fs : FileSystem) (filePath : Str)
    (size : Nat) (buffer : List Nat)
    (hext : binaryExtensions.contains (toLowerCase (P.extname filePath)) = false)
    (hstat : fs.statSize filePath = .ok size) (hsize : size ≠ 0)
    (hread : fs.readFileBytes filePath = .ok buffer) :
    (isBinaryFile P fs filePath = true ↔
        ∃ i, i < min 1024 size ∧ buffer[i]? = some 0) ∧
      ((∀ i, i < 1024 → buffer[i]? ≠ some 0) → isBinaryFile P fs filePath = false) := by
  rw [isBinaryFile_eq_sample P fs filePath size buffer hext hstat hsize hread]
  refine ⟨contains_zero_take buffer _, ?_⟩
  intro h
  rw [Bool.eq_false_iff]
  intro hc
  obtain ⟨i, hi, hx⟩ := (contains_zero_take buffer _).1 hc
  exact h i (lt_of_lt_of_le hi (Nat.min_le_left _ _)) hx

set_option maxRecDepth 100000 in
/-- C11 at a file of 1024 bytes `A` followed by a byte 0: it is classified as
text, while a file with a byte 0 at offset 1 is classified as binary. -/
theorem isBinaryFile_sample_witness :
    (binaryExtensions.contains
          (toLowerCase (posixPath.extname "/root/late.txt".toList)) = false ∧
        sampleRoot.statSize "/root/late.txt".toList = .ok 1025 ∧ 1025 ≠ 0 ∧
        sampleRoot.readFileBytes "/root/late.txt".toList =
          .ok (List.replicate 1024 65 ++ [0])) ∧
      ((isBinaryFile posixPath sampleRoot "/root/late.txt".toList = true ↔
          ∃ i, i < min 1024 1025 ∧ (List.replicate 1024 65 ++ [0])[i]? = some 0) ∧
        ((∀ i, i < 1024 → (List.replicate 1024 65 ++ [0])[i]? ≠ some 0) →
          isBinaryFile posixPath sampleRoot "/root/late.txt".toList = false)) ∧
      isBinaryFile posixPath sampleRoot "/root/late.txt".toList = false ∧
      isBinaryFile posixPath sampleRoot "/root/early.txt".toList = true :=
  ⟨⟨by decide, rfl, by decide, rfl⟩,
    isBinaryFile_sample posixPath sampleRoot "/root/late.txt".toList 1025
      (List.replicate 1024 65 ++ [0]) (by decide) rfl (by decide) rfl,
    by decide, by decide⟩

/-! ### The records of each candidate -/

theorem recordsOf_text (P : PathModule) (fs : FileSystem) (rootDir f content : Str)
    (hb : isBinaryFile P fs f = false) (hr : fs.readFileUtf8 f = .ok content) :
    recordsOf P fs rootDir f =
      { textFiles := [{ path := P.relative rootDir f, absolutePath := f, content := content,
                        size := jsLength content, lines := (splitLines content).length }],
        binaryFiles := [], errors := [], totalFiles := 0, processedFiles := 1 } := by
  simp [recordsOf, processFile, tryProcessFile, hb, hr]

theorem recordsOf_binary (P : PathModule) (fs : FileSystem) (rootDir f : Str) (size : Nat)
    (hb : isBinaryFile P fs f = true) (hs : fs.statSize f = .ok size) :
    recordsOf P fs rootDir f =
      { textFiles := [],
        binaryFiles := [{ path := P.relative rootDir f, absolutePath := f, size := size }],
        errors := [], totalFiles := 0, processedFiles := 1 } := by
  simp [recordsOf, processFile, tryProcessFile, hb, hs]

theorem recordsOf_read_error (P : PathModule) (fs : FileSystem) (rootDir f message : Str)
    (hb : isBinaryFile P fs f = false) (hr : fs.readFileUtf8 f = .error message) :
    recordsOf P fs rootDir f =
      { textFiles := [], binaryFiles := [],
        errors := [{ path := P.relative rootDir f, absolutePath := f, error := message }],
        totalFiles := 0, processedFiles := 1 } := by
  simp [recordsOf, processFile, tryProcessFile, hb, hr]

theorem recordsOf_stat_error (P : PathModule) (fs : FileSystem) (rootDir f message : Str)
    (hb : isBinaryFile P fs f = true) (hs : fs.statSize f = .error message) :
    recordsOf P fs rootDir f =
      { textFiles := [], binaryFiles := [],
        errors := [{ path := P.relative rootDir f, absolutePath := f, error := message }],
        totalFiles := 0, processedFiles := 1 } := by
  simp [recordsOf, processFile, tryProcessFile, hb, hs]

theorem processFile_eq_append (P : PathModule) (fs : FileSystem) (rootDir : Str)
    (r : AggregateResult) (f : Str) :
    processFile P fs rootDir r f =
      { textFiles := r.textFiles ++ (recordsOf P fs rootDir f).textFiles,
        binaryFiles := r.binaryFiles ++ (recordsOf P fs rootDir f).binaryFiles,
        errors := r.errors ++ (recordsOf P fs rootDir f).errors,
        totalFiles := r.totalFiles,
        processedFiles := r.processedFiles + 1 } := by
  cases hb : isBinaryFile P fs f
  · cases hr : fs.readFileUtf8 f with
    | error m =>
      rw [recordsOf_read_error P fs rootDir f m hb hr]
      simp [processFile, tryProcessFile, hb, hr]
    | ok content =>
      rw [recordsOf_text P fs rootDir f content hb hr]
      simp [processFile, tryProcessFile, hb, hr]
  · cases hs : fs.statSize f with
    | error m =>
      rw [recordsOf_stat_error P fs rootDir f m hb hs]
      simp [processFile, tryProcessFile, hb, hs]
    | ok size =>
      rw [recordsOf_binary P fs rootDir f size hb hs]
      simp [processFile, tryProcessFile, hb, hs]

theorem foldl_processFile_lists (P : PathModule) (fs : FileSystem) (rootDir : Str)
    (files : List Str) (r : AggregateResult) :
    (files.foldl (processFile P fs rootDir) r).textFiles =
        r.textFiles ++ (files.map (fun f => (recordsOf P fs rootDir f).textFiles)).flatten ∧
      (files.foldl (processFile P fs rootDir) r).binaryFiles =
        r.binaryFiles ++ (files.map (fun f => (recordsOf P fs rootDir f).binaryFiles)).flatten ∧
      (files.foldl (processFile P fs rootDir) r).errors =
        r.errors ++ (files.map (fun f => (recordsOf P fs rootDir f).errors)).flatten := by
  induction files generalizing r with
  | nil => simp
  | cons f fs' ih =>
    obtain ⟨h1, h2, h3⟩ := ih (processFile P fs rootDir r f)
    rw [List.foldl_cons, h1, h2, h3, processFile_eq_append]
    simp

theorem aggregate_lists (P : PathModule) (fs : FileSystem) (files : List Str)
    (rootDir : Str) :
    (aggregateFileContents P fs files rootDir).textFiles =
        (files.map (fun f => (recordsOf P fs rootDir f).textFiles)).flatten ∧
      (aggregateFileContents P fs files rootDir).binaryFiles =
        (files.map (fun f => (recordsOf P fs rootDir f).binaryFiles)).flatten ∧
      (aggregateFileContents P fs files rootDir).errors =
        (files.map (fun f => (recordsOf P fs rootDir f).errors)).flatten := by
  have h := foldl_processFile_lists P fs rootDir files
    { textFiles := [], binaryFiles := [], errors := [],
      totalFiles := files.length, processedFiles := 0 }
  simpa [aggregateFileContents] using h

/-- What the records of one candidate can be. -/
theorem recordsOf_cases (P : PathModule) (fs : FileSystem) (rootDir f : Str) :
    (∃ content, isBinaryFile P fs f = false ∧ fs.readFileUtf8 f = .ok content ∧
        (recordsOf P fs rootDir f).textFiles =
          [{ path := P.relative rootDir f, absolutePath := f, content := content,
             size := jsLength content, lines := (splitLines content).length }] ∧
        (recordsOf P fs rootDir f).binaryFiles = [] ∧ (recordsOf P fs rootDir f).errors = []) ∨
    (∃ size, isBinaryFile P fs f = true ∧ fs.statSize f = .ok size ∧
        (recordsOf P fs rootDir f).textFiles = [] ∧
        (recordsOf P fs rootDir f).binaryFiles =
          [{ path := P.relative rootDir f, absolutePath := f, size := size }] ∧
        (recordsOf P fs rootDir f).errors = []) ∨
    (∃ message,
        ((isBinaryFile P fs f = true ∧ fs.statSize f = .error message) ∨
          (isBinaryFile P fs f = false ∧ fs.readFileUtf8 f = .error message)) ∧
        (recordsOf P fs rootDir f).textFiles = [] ∧
        (recordsOf P fs rootDir f).binaryFiles = [] ∧
        (recordsOf P fs rootDir f).errors =
          [{ path := P.relative rootDir f, absolutePath := f, error := message }]) := by
  cases hb : isBinaryFile P fs f
  · cases hr : fs.readFileUtf8 f with
    | error m =>
      right; right
      refine ⟨m, Or.inr ⟨rfl, rfl⟩, ?_⟩
      rw [recordsOf_read_error P fs rootDir f m hb hr]
      exact ⟨rfl, rfl, rfl⟩
    | ok content =>
      left
      refine ⟨content, rfl, rfl, ?_⟩
      rw [recordsOf_text P fs rootDir f content hb hr]
      exact ⟨rfl, rfl, rfl⟩
  · cases hs : fs.statSize f with
    | error m =>
      right; right
      refine ⟨m, Or.inl ⟨rfl, rfl⟩, ?_⟩
      rw [recordsOf_stat_error P fs rootDir f m hb hs]
      exact ⟨rfl, rfl, rfl⟩
    | ok size =>
      right; left
      refine ⟨size, rfl, rfl, ?_⟩
      rw [recordsOf_binary P fs rootDir f size hb hs]
      exact ⟨rfl, rfl, rfl⟩

theorem splitLines_ne_nil (s : Str) : splitLines s ≠ [] := by
  induction s with
  | nil => simp [splitLines]
  | cons c cs ih =>
    unfold splitLines
    split_ifs
    · simp
    · split <;> simp

theorem length_splitLines (s : Str) : (splitLines s).length = s.count '\n' + 1 := by
  induction s with
  | nil => rfl
  | cons c cs ih =>
    unfold splitLines
    by_cases h : c = '\n'
    · subst h
      simp [ih]
    · have hc : (c == '\n') = false := by simpa using h
      rw [if_neg h, List.count_cons, hc]
      obtain ⟨l, ls, hl⟩ := List.exists_cons_of_ne_nil (splitLines_ne_nil cs)
      rw [hl] at ih ⊢
      simpa using ih

theorem mem_aggregate_textFiles (P : PathModule) (fs : FileSystem) (files : List Str)
    (rootDir : Str) (t : TextFileRecord) :
    t ∈ (aggregateFileContents P fs files rootDir).textFiles ↔
      ∃ f ∈ files, t ∈ (recordsOf P fs rootDir f).textFiles := by
  rw [(aggregate_lists P fs files rootDir).1]
  simp [List.mem_flatten]

theorem mem_aggregate_binaryFiles (P : PathModule) (fs : FileSystem) (files : List Str)
    (rootDir : Str) (b : BinaryFileRecord) :
    b ∈ (aggregateFileContents P fs files rootDir).binaryFiles ↔
      ∃ f ∈ files, b ∈ (recordsOf P fs rootDir f).binaryFiles := by
  rw [(aggregate_lists P fs files rootDir).2.1]
  simp [List.mem_flatten]

theorem mem_aggregate_errors (P : PathModule) (fs : FileSystem) (files : List Str)
    (rootDir : Str) (e : ErrorRecord) :
    e ∈ (aggregateFileContents P fs files rootDir).errors ↔
      ∃ f ∈ files, e ∈ (recordsOf P fs rootDir f).errors := by
  rw [(aggregate_lists P fs files rootDir).2.2]
  simp [List.mem_flatten]

theorem jsLength_eq_length (s : Str) (h : ∀ c ∈ s, c.toNat < 0x10000) :
    jsLength s = s.length := by
  induction s with
  | nil => rfl
  | cons c cs ih =>
    have hc : c.toNat < 0x10000 := h c (by simp)
    rw [jsLength, if_pos hc, ih (fun d hd => h d (by simp [hd])), List.length_cons]
    omega

/-- C15: every text record of the result holds the text read from its file;
its `size` is the length of that text as a JavaScript string, which counts
UTF-16 code units and so is the number of characters when all of them are up
to U+FFFF; its `lines` is the number of segments between line feeds, the
number of line feeds plus one. A candidate that is classified as text and is
read gets such a record. `hello` has size 5 and one line; the file holding the
single character U+1F600 gets size 2, and the text of `é` and a line feed,
three bytes long, gets size 2. -/
theorem textRecord_size_lines (P : PathModule) (fs : FileSystem) (files : List Str)
    (rootDir : Str) :
    (∀ t ∈ (aggregateFileContents P fs files rootDir).textFiles,
        fs.readFileUtf8 t.absolutePath = .ok t.content ∧
          t.size = jsLength t.content ∧
          ((∀ c ∈ t.content, c.toNat < 0x10000) → t.size = t.content.length) ∧
          t.lines = (splitLines t.content).length ∧
          t.lines = t.content.count '\n' + 1) ∧
      (∀ f ∈ files, ∀ content : Str,
        isBinaryFile P fs f = false → fs.readFileUtf8 f = .ok content →
          ({ path := P.relative rootDir f, absolutePath := f, content := content,
             size := jsLength content, lines := content.count '\n' + 1 } : TextFileRecord) ∈
            (aggregateFileContents P fs files rootDir).textFiles) ∧
      (jsLength "hello".toList = 5 ∧ (splitLines "hello".toList).length = 1) ∧
      (aggregateFileContents posixPath unicodeRoot
          ["/root/face.txt".toList, "/root/accent.txt".toList] "/root".toList).textFiles.map
        (fun t => (t.content, t.size, t.lines)) =
        [([Char.ofNat 0x1F600], 2, 1), ([Char.ofNat 0xE9, '\n'], 2, 2)] := by
  refine ⟨?_, ?_, by decide, by decide⟩
  · intro t ht
    obtain ⟨f, _, htf⟩ := (mem_aggregate_textFiles P fs files rootDir t).1 ht
    rcases recordsOf_cases P fs rootDir f with
      ⟨content, _, hr, h1, _, _⟩ | ⟨size, _, _, h1, _, _⟩ | ⟨m, _, h1, _, _⟩
    · rw [h1, List.mem_singleton] at htf
      subst htf
      exact ⟨hr, rfl, fun hbmp => jsLength_eq_length content hbmp, rfl,
        length_splitLines content⟩
    · rw [h1] at htf; simp at htf
    · rw [h1] at htf; simp at htf
  · intro f hf content hb hr
    rw [mem_aggregate_textFiles]
    refine ⟨f, hf, ?_⟩
    rw [recordsOf_text P fs rootDir f content hb hr, ← length_splitLines]
    simp

/-! ### A candidate that cannot be read -/

theorem recordsOf_failed (P : PathModule) (fs : FileSystem) (rootDir f message : Str)
    (hfail : (isBinaryFile P fs f = true ∧ fs.statSize f = .error message) ∨
      (isBinaryFile P fs f = false ∧ fs.readFileUtf8 f = .error message)) :
    (recordsOf P fs rootDir f).textFiles = [] ∧
      (recordsOf P fs rootDir f).binaryFiles = [] ∧
      (recordsOf P fs rootDir f).errors =
        [{ path := P.relative rootDir f, absolutePath := f, error := message }] := by
  rcases hfail with ⟨hb, hs⟩ | ⟨hb, hr⟩
  · rw [recordsOf_stat_error P fs rootDir f message hb hs]; exact ⟨rfl, rfl, rfl⟩
  · rw [recordsOf_read_error P fs rootDir f message hb hr]; exact ⟨rfl, rfl, rfl⟩

theorem absolutePath_of_mem_recordsOf (P : PathModule) (fs : FileSystem) (rootDir f : Str) :
    (∀ t ∈ (recordsOf P fs rootDir f).textFiles, t.absolutePath = f) ∧
      (∀ b ∈ (recordsOf P fs rootDir f).binaryFiles, b.absolutePath = f) ∧
      (∀ e ∈ (recordsOf P fs rootDir f).errors, e.absolutePath = f) := by
  rcases recordsOf_cases P fs rootDir f with
    ⟨content, _, _, h1, h2, h3⟩ | ⟨size, _, _, h1, h2, h3⟩ | ⟨m, _, h1, h2, h3⟩ <;>
    · rw [h1, h2, h3]
      refine ⟨?_, ?_, ?_⟩ <;> intro x hx <;> simp_all

theorem filter_errors_of_not_mem (P : PathModule) (fs : FileSystem) (rootDir f : Str)
    (files : List Str) (hf : f ∉ files) :
    (aggregateFileContents P fs files rootDir).errors.filter
      (fun e => e.absolutePath == f) = [] := by
  rw [List.filter_eq_nil_iff]
  intro e he
  obtain ⟨g, hg, heg⟩ := (mem_aggregate_errors P fs files rootDir e).1 he
  have := (absolutePath_of_mem_recordsOf P fs rootDir g).2.2 e heg
  intro hc
  have hc2 : e.absolutePath = f := by simpa using hc
  exact hf (hc2 ▸ this ▸ hg)

/-- C13: when the `stat` or the read that `aggregateFileContents` makes for a
candidate fails, the error list gets one record with the candidate's relative
path and the error message, at the candidate's place among the errors; no text
or binary record is made for it; the text and binary records are those of the
list without the candidate, in the same order; and if the candidate occurs
once, that record is the only error record for its path. -/
theorem failed_candidate_recorded (P : PathModule) (fs : FileSystem) (rootDir : Str)
    (before after : List Str) (f message : Str)
    (hfail : (isBinaryFile P fs f = true ∧ fs.statSize f = .error message) ∨
      (isBinaryFile P fs f = false ∧ fs.readFileUtf8 f = .error message)) :
    (aggregateFileContents P fs (before ++ f :: after) rootDir).errors =
        (aggregateFileContents P fs before rootDir).errors ++
          { path := P.relative rootDir f, absolutePath := f, error := message } ::
            (aggregateFileContents P fs after rootDir).errors ∧
      (aggregateFileContents P fs (before ++ f :: after) rootDir).textFiles =
        (aggregateFileContents P fs (before ++ after) rootDir).textFiles ∧
      (aggregateFileContents P fs (before ++ f :: after) rootDir).binaryFiles =
        (aggregateFileContents P fs (before ++ after) rootDir).binaryFiles ∧
      (∀ t ∈ (aggregateFileContents P fs (before ++ f :: after) rootDir).textFiles,
        t.absolutePath ≠ f) ∧
      (∀ b ∈ (aggregateFileContents P fs (before ++ f :: after) rootDir).binaryFiles,
        b.absolutePath ≠ f) ∧
      (f ∉ before ++ after →
        (aggregateFileContents P fs (before ++ f :: after) rootDir).errors.filter
            (fun e => e.absolutePath == f) =
          [{ path := P.relative rootDir f, absolutePath := f, error := message }]) := by
  obtain ⟨ht, hb, he⟩ := recordsOf_failed P fs rootDir f message hfail
  have herr : (aggregateFileContents P fs (before ++ f :: after) rootDir).errors =
      (aggregateFileContents P fs before rootDir).errors ++
        { path := P.relative rootDir f, absolutePath := f, error := message } ::
          (aggregateFileContents P fs after rootDir).errors := by
    simp only [(aggregate_lists P fs _ rootDir).2.2, List.map_append, List.map_cons,
      List.flatten_append, List.flatten_cons, he, List.singleton_append]
  have htext : (aggregateFileContents P fs (before ++ f :: after) rootDir).textFiles =
      (aggregateFileContents P fs (before ++ after) rootDir).textFiles := by
    simp only [(aggregate_lists P fs _ rootDir).1, List.map_append, List.map_cons,
      List.flatten_append, List.flatten_cons, ht, List.nil_append]
  have hbin : (aggregateFileContents P fs (before ++ f :: after) rootDir).binaryFiles =
      (aggregateFileContents P fs (before ++ after) rootDir).binaryFiles := by
    simp only [(aggregate_lists P fs _ rootDir).2.1, List.map_append, List.map_cons,
      List.flatten_append, List.flatten_cons, hb, List.nil_append]
  refine ⟨herr, htext, hbin, ?_, ?_, ?_⟩
  · intro t htmem hc
    obtain ⟨g, _, htg⟩ := (mem_aggregate_textFiles P fs _ rootDir t).1 htmem
    have hg := (absolutePath_of_mem_recordsOf P fs rootDir g).1 t htg
    rw [hc] at hg
    rw [← hg, ht] at htg
    simp at htg
  · intro b hbmem hc
    obtain ⟨g, _, hbg⟩ := (mem_aggregate_binaryFiles P fs _ rootDir b).1 hbmem
    have hg := (absolutePath_of_mem_recordsOf P fs rootDir g).2.1 b hbg
    rw [hc] at hg
    rw [← hg, hb] at hbg
    simp at hbg
  · intro hnot
    have h1 := filter_errors_of_not_mem P fs rootDir f before
      (fun h => hnot (List.mem_append.2 (Or.inl h)))
    have h2 := filter_errors_of_not_mem P fs rootDir f after
      (fun h => hnot (List.mem_append.2 (Or.inr h)))
    rw [herr, List.filter_append, List.filter_cons, h1, h2]
    simp

/-- C13 at a root where the middle candidate of three does not exist. -/
theorem failed_candidate_recorded_witness :
    ((isBinaryFile posixPath mixedRoot "/root/gone".toList = true ∧
          mixedRoot.statSize "/root/gone".toList = .error "ENOENT".toList) ∨
        (isBinaryFile posixPath mixedRoot "/root/gone".toList = false ∧
          mixedRoot.readFileUtf8 "/root/gone".toList = .error "ENOENT".toList)) ∧
      (aggregateFileContents posixPath mixedRoot
          (["/root/a.txt".toList] ++ "/root/gone".toList :: ["/root/img.png".toList])
          "/root".toList).errors =
        (aggregateFileContents posixPath mixedRoot ["/root/a.txt".toList] "/root".toList).errors ++
          { path := posixPath.relative "/root".toList "/root/gone".toList,
            absolutePath := "/root/gone".toList, error := "ENOENT".toList } ::
            (aggregateFileContents posixPath mixedRoot ["/root/img.png".toList]
              "/root".toList).errors ∧
      (aggregateFileContents posixPath mixedRoot
          ["/root/a.txt".toList, "/root/gone".toList, "/root/img.png".toList]
          "/root".toList).errors =
        [{ path := "gone".toList, absolutePath := "/root/gone".toList,
           error := "ENOENT".toList }] :=
  ⟨Or.inr ⟨by decide, rfl⟩,
    (failed_candidate_recorded posixPath mixedRoot "/root".toList ["/root/a.txt".toList]
      ["/root/img.png".toList] "/root/gone".toList "ENOENT".toList
      (Or.inr ⟨by decide, rfl⟩)).1,
    by decide⟩

/-! ### Statistics -/

theorem foldl_add_lines (l : List TextFileRecord) (init : Nat) :
    l.foldl (fun sum file => sum + file.lines) init = init + (l.map (fun t => t.lines)).sum := by
  induction l generalizing init with
  | nil => simp
  | cons t ts ih => rw [List.foldl_cons, ih]; simp [Nat.add_assoc]

/-- C17: `calculateStatistics` reports as `textFiles` the number of text
records, as `binaryFiles` the number of binary records and as `totalLines` the
sum of the line counts of the text records; for the result of aggregating
`a.txt` with content `hello` and `img.png` these are 1, 1 and 1. -/
theorem calculateStatistics_counts (nf : NumberFormat) (agg : AggregateResult)
    (xmlContent : Str) :
    (calculateStatistics nf agg xmlContent).textFiles = agg.textFiles.length ∧
      (calculateStatistics nf agg xmlContent).binaryFiles = agg.binaryFiles.length ∧
      (calculateStatistics nf agg xmlContent).totalLines =
        (agg.textFiles.map (fun t => t.lines)).sum ∧
      (calculateStatistics nf
          (aggregateFileContents posixPath mixedRoot
            ["/root/a.txt".toList, "/root/img.png".toList] "/root".toList)
          xmlContent).textFiles = 1 ∧
      (calculateStatistics nf
          (aggregateFileContents posixPath mixedRoot
            ["/root/a.txt".toList, "/root/img.png".toList] "/root".toList)
          xmlContent).binaryFiles = 1 ∧
      (calculateStatistics nf
          (aggregateFileContents posixPath mixedRoot
            ["/root/a.txt".toList, "/root/img.png".toList] "/root".toList)
          xmlContent).totalLines = 1 := by
  have hlines : ∀ a : AggregateResult, (calculateStatistics nf a xmlContent).totalLines =
      (a.textFiles.map (fun t => t.lines)).sum := by
    intro a
    simp [calculateStatistics, foldl_add_lines]
  refine ⟨rfl, rfl, hlines agg, ?_, ?_, ?_⟩
  · show (aggregateFileContents posixPath mixedRoot
      ["/root/a.txt".toList, "/root/img.png".toList] "/root".toList).textFiles.length = 1
    decide
  · show (aggregateFileContents posixPath mixedRoot
      ["/root/a.txt".toList, "/root/img.png".toList] "/root".toList).binaryFiles.length = 1
    decide
  · rw [hlines]
    decide

/-! ### Lines and indentation -/

theorem splitLines_cons_of_ne (c : Char) (cs : Str) (h : c ≠ '\n') :
    ∃ l ls, splitLines cs = l :: ls ∧ splitLines (c :: cs) = (c :: l) :: ls := by
  obtain ⟨l, ls, hl⟩ := List.exists_cons_of_ne_nil (splitLines_ne_nil cs)
  refine ⟨l, ls, hl, ?_⟩
  rw [splitLines, if_neg h, hl]

theorem splitLines_cons_newline (cs : Str) : splitLines ('\n' :: cs) = [] :: splitLines cs := by
  rw [splitLines, if_pos rfl]

theorem no_newline_of_mem_splitLines (s : Str) : ∀ l ∈ splitLines s, '\n' ∉ l := by
  induction s with
  | nil => intro l hl; simp [splitLines] at hl; simp [hl]
  | cons c cs ih =>
    by_cases h : c = '\n'
    · subst h
      rw [splitLines_cons_newline]
      intro l hl
      rcases List.mem_cons.1 hl with rfl | hl
      · simp
      · exact ih l hl
    · obtain ⟨l0, ls, h1, h2⟩ := splitLines_cons_of_ne c cs h
      rw [h2]
      rw [h1] at ih
      intro l hl
      rcases List.mem_cons.1 hl with rfl | hl
      · intro hmem
        rcases List.mem_cons.1 hmem with hc | hm
        · exact h hc.symm
        · exact ih l0 (by simp) hm
      · exact ih l (by simp [hl])

theorem joinLines_cons_cons (l l2 : Str) (ls : List Str) :
    joinLines (l :: l2 :: ls) = l ++ '\n' :: joinLines (l2 :: ls) := by
  rw [joinLines]
  intro h
  exact absurd h (List.cons_ne_nil _ _)

theorem joinLines_splitLines (s : Str) : joinLines (splitLines s) = s := by
  induction s with
  | nil => rfl
  | cons c cs ih =>
    by_cases h : c = '\n'
    · subst h
      rw [splitLines_cons_newline]
      obtain ⟨l, ls, hl⟩ := List.exists_cons_of_ne_nil (splitLines_ne_nil cs)
      rw [hl] at ih ⊢
      rw [joinLines_cons_cons, ih]
      rfl
    · obtain ⟨l0, ls, h1, h2⟩ := splitLines_cons_of_ne c cs h
      rw [h2]
      rw [h1] at ih
      cases ls with
      | nil =>
        simp only [joinLines] at ih ⊢
        rw [ih]
      | cons l2 ls =>
        rw [joinLines_cons_cons] at ih ⊢
        rw [List.cons_append, ih]

theorem splitLines_of_no_newline (l : Str) (h : '\n' ∉ l) : splitLines l = [l] := by
  induction l with
  | nil => rfl
  | cons c cs ih =>
    have hc : c ≠ '\n' := fun e => h (by simp [e])
    have hcs : '\n' ∉ cs := fun e => h (by simp [e])
    rw [splitLines, if_neg hc, ih hcs]

theorem splitLines_append_newline (l rest : Str) (h : '\n' ∉ l) :
    splitLines (l ++ '\n' :: rest) = l :: splitLines rest := by
  induction l with
  | nil => exact splitLines_cons_newline rest
  | cons c cs ih =>
    have hc : c ≠ '\n' := fun e => h (by simp [e])
    have hcs : '\n' ∉ cs := fun e => h (by simp [e])
    rw [List.cons_append, splitLines, if_neg hc, ih hcs]

theorem splitLines_joinLines (ls : List Str) (hne : ls ≠ [])
    (h : ∀ l ∈ ls, '\n' ∉ l) : splitLines (joinLines ls) = ls := by
  induction ls with
  | nil => exact absurd rfl hne
  | cons l rest ih =>
    cases rest with
    | nil =>
      simp only [joinLines]
      exact splitLines_of_no_newline l (h l (by simp))
    | cons l2 rest =>
      rw [joinLines_cons_cons, splitLines_append_newline l _ (h l (by simp)),
        ih (by simp) (fun x hx => h x (by simp [hx]))]

theorem splitLines_indentFileContent (c : Str) :
    splitLines (indentFileContent c) =
      (splitLines c).map (fun line => "    ".toList ++ line) := by
  unfold indentFileContent
  apply splitLines_joinLines
  · simpa using splitLines_ne_nil c
  · intro l hl
    obtain ⟨l0, hl0, rfl⟩ := List.mem_map.1 hl
    intro hmem
    rcases List.mem_append.1 hmem with h | h
    · revert h; decide
    · exact no_newline_of_mem_splitLines c l0 hl0 h

/-- C16: `indentFileContent` puts four spaces in front of every line of the
content, the first included, and changes nothing else: the lines of the result
are the lines of the content with four spaces in front, they are as many, and
taking the first four characters off every line of the result gives the
content back. -/
theorem indentFileContent_lines (c : Str) :
    splitLines (indentFileContent c) =
        (splitLines c).map (fun line => [' ', ' ', ' ', ' '] ++ line) ∧
      (splitLines (indentFileContent c)).length = (splitLines c).length ∧
      joinLines ((splitLines (indentFileContent c)).map (fun line => line.drop 4)) = c := by
  have h := splitLines_indentFileContent c
  refine ⟨h, ?_, ?_⟩
  · rw [h, List.length_map]
  · rw [h, List.map_map]
    have : ((fun line : Str => line.drop 4) ∘ fun line => "    ".toList ++ line) = id := by
      funext line
      rfl
    rw [this, List.map_id, joinLines_splitLines]

/-! ### The closing delimiter and indentation -/

theorem isPrefix_left_of_sep (c : Char) (p a b : Str) (hc : c ∉ p)
    (h : p <+: a ++ c :: b) : p <+: a := by
  induction a generalizing p with
  | nil =>
    cases p with
    | nil => exact List.nil_prefix
    | cons x t =>
      rw [List.nil_append, List.cons_prefix_cons] at h
      exact absurd (by simp [h.1]) hc
  | cons x a ih =>
    cases p with
    | nil => exact List.nil_prefix
    | cons y t =>
      rw [List.cons_append, List.cons_prefix_cons] at h
      rw [List.cons_prefix_cons]
      exact ⟨h.1, ih t (fun e => hc (by simp [e])) h.2⟩

theorem isInfix_sep_iff (c : Char) (p a b : Str) (hc : c ∉ p) (hne : p ≠ []) :
    p <:+: a ++ c :: b ↔ p <:+: a ∨ p <:+: b := by
  induction a with
  | nil =>
    rw [List.nil_append, List.infix_cons_iff]
    constructor
    · rintro (h | h)
      · have := isPrefix_left_of_sep c p [] b hc h
        exact absurd (List.prefix_nil.1 this) hne
      · exact Or.inr h
    · rintro (h | h)
      · exact absurd (List.infix_nil.1 h) hne
      · exact Or.inr h
  | cons x a ih =>
    rw [List.cons_append, List.infix_cons_iff, ih, List.infix_cons_iff]
    constructor
    · rintro (h | h | h)
      · exact Or.inl (Or.inl (isPrefix_left_of_sep c p (x :: a) b hc h))
      · exact Or.inl (Or.inr h)
      · exact Or.inr h
    · rintro ((h | h) | h)
      · exact Or.inl (h.trans (List.prefix_append (x :: a) (c :: b)))
      · exact Or.inr (Or.inl h)
      · exact Or.inr (Or.inr h)

theorem isInfix_joinLines_iff (p : Str) (hc : '\n' ∉ p) (hne : p ≠ []) (ls : List Str) :
    p <:+: joinLines ls ↔ ∃ l ∈ ls, p <:+: l := by
  induction ls with
  | nil =>
    simp only [joinLines, List.not_mem_nil, false_and, exists_false, iff_false]
    exact fun h => hne (List.infix_nil.1 h)
  | cons l rest ih =>
    cases rest with
    | nil => simp [joinLines]
    | cons l2 rest =>
      rw [joinLines_cons_cons, isInfix_sep_iff '\n' p l _ hc hne, ih]
      simp

theorem close_isInfix_indented (l : Str) :
    "]]>".toList <:+: "    ".toList ++ l ↔ "]]>".toList <:+: l := by
  have step : ∀ t : Str, "]]>".toList <:+: ' ' :: t ↔ "]]>".toList <:+: t := by
    intro t
    rw [List.infix_cons_iff]
    constructor
    · rintro (h | h)
      · simp [List.cons_prefix_cons] at h
      · exact h
    · exact Or.inr
  show "]]>".toList <:+: ' ' :: ' ' :: ' ' :: ' ' :: l ↔ _
  rw [step, step, step, step]

theorem close_isInfix_indentFileContent (c : Str) :
    "]]>".toList <:+: indentFileContent c ↔ "]]>".toList <:+: c := by
  have hc : '\n' ∉ "]]>".toList := by decide
  have hne : "]]>".toList ≠ [] := by decide
  unfold indentFileContent
  rw [isInfix_joinLines_iff _ hc hne]
  conv_rhs => rw [← joinLines_splitLines c, isInfix_joinLines_iff _ hc hne]
  constructor
  · rintro ⟨l, hl, h⟩
    obtain ⟨l0, hl0, rfl⟩ := List.mem_map.1 hl
    exact ⟨l0, hl0, (close_isInfix_indented l0).1 h⟩
  · rintro ⟨l, hl, h⟩
    exact ⟨"    ".toList ++ l, List.mem_map.2 ⟨l, hl, rfl⟩, (close_isInfix_indented l).2 h⟩

theorem cdataTemplate_eq_section (text : Str) :
    cdataTemplate text = cdataSection ("\n".toList ++ text ++ "\n    ".toList) := by
  simp [cdataTemplate, cdataSection]

theorem close_not_isInfix_framed (text : Str) (h : ¬ "]]>".toList <:+: text) :
    ¬ "]]>".toList <:+: "\n".toList ++ text ++ "\n    ".toList := by
  intro hin
  have h1 : "]]>".toList <:+: '\n' :: (text ++ "\n    ".toList) := by simpa using hin
  rw [List.infix_cons_iff] at h1
  rcases h1 with h1 | h1
  · simp [List.cons_prefix_cons] at h1
  · have h2 : "]]>".toList <:+: text ++ '\n' :: "    ".toList := h1
    rw [isInfix_sep_iff '\n' _ text _ (by decide) (by decide)] at h2
    rcases h2 with h2 | h2
    · exact h h2
    · revert h2; decide

theorem fileBody_single_block (c : Str) (hne : c ≠ [])
    (h : includes c "]]>".toList = false) :
    fileBody c = cdataTemplate (indentFileContent c) := by
  unfold fileBody
  by_cases ht : trim c ≠ []
  · rw [if_pos ht]
    simp only [h, Bool.false_eq_true, if_false]
  · rw [if_neg ht, if_pos hne]

/-- C19: the indented content contains `]]>` exactly when the content does;
so when a non-empty content without `]]>` is put in a single block, the
payload of that block, a line feed, the indented content, a line feed and four
spaces, contains no `]]>`; and for every non-empty content the body of the
element is one or more CDATA sections laid end to end, no payload of which
contains `]]>`. -/
theorem fileBody_payloads_safe (c : Str) :
    (includes (indentFileContent c) "]]>".toList = true ↔
        includes c "]]>".toList = true) ∧
      (c ≠ [] → includes c "]]>".toList = false →
        fileBody c =
            cdataSection ("\n".toList ++ indentFileContent c ++ "\n    ".toList) ∧
          ¬ "]]>".toList <:+: "\n".toList ++ indentFileContent c ++ "\n    ".toList) ∧
      (c ≠ [] → ∃ payloads : List Str, payloads ≠ [] ∧
        fileBody c = (payloads.map cdataSection).flatten ∧
        ∀ p ∈ payloads, ¬ "]]>".toList <:+: p) := by
  have hiff : includes (indentFileContent c) "]]>".toList = true ↔
      includes c "]]>".toList = true := by
    rw [includes_eq_true_iff, includes_eq_true_iff]
    exact close_isInfix_indentFileContent c
  have hsingle : c ≠ [] → includes c "]]>".toList = false →
      fileBody c =
          cdataSection ("\n".toList ++ indentFileContent c ++ "\n    ".toList) ∧
        ¬ "]]>".toList <:+: "\n".toList ++ indentFileContent c ++ "\n    ".toList := by
    intro hne h
    refine ⟨by rw [fileBody_single_block c hne h, cdataTemplate_eq_section], ?_⟩
    apply close_not_isInfix_framed
    intro hin
    have h2 : includes c "]]>".toList = true :=
      hiff.1 ((includes_eq_true_iff _ _).2 hin)
    rw [h] at h2
    exact Bool.false_ne_true h2
  refine ⟨hiff, hsingle, ?_⟩
  intro hne
  cases h : includes c "]]>".toList
  · obtain ⟨h1, h2⟩ := hsingle hne h
    refine ⟨["\n".toList ++ indentFileContent c ++ "\n    ".toList], by simp, ?_, ?_⟩
    · rw [h1]; simp
    · intro p hp
      rw [List.mem_singleton] at hp
      rw [hp]
      exact h2
  · obtain ⟨ps, hps, heq, hsafe, _⟩ := splitAndWrapCDATA_payloads (indentFileContent c)
    exact ⟨ps, hps, by rw [fileBody_of_includes c h, heq], hsafe⟩

/-! ### Loading the ignore rules -/

theorem head_dropWhile_isWhiteSpace (l : Str) (c : Char)
    (h : (l.dropWhile isWhiteSpace).head? = some c) : isWhiteSpace c = false := by
  have := List.head?_dropWhile_not isWhiteSpace l
  rw [h] at this
  exact this

theorem trim_last (s : Str) (c : Char) (h : (trim s).getLast? = some c) :
    isWhiteSpace c = false := by
  unfold trim at h
  rw [List.getLast?_reverse] at h
  exact head_dropWhile_isWhiteSpace _ c h

theorem trim_head (s : Str) (c : Char) (h : (trim s).head? = some c) :
    isWhiteSpace c = false := by
  unfold trim at h
  rw [List.head?_reverse] at h
  obtain ⟨ys, hys⟩ := List.getLast?_eq_some_iff.1 h
  obtain ⟨t, ht⟩ := List.dropWhile_suffix (l := (s.dropWhile isWhiteSpace).reverse) isWhiteSpace
  rw [hys] at ht
  have hrev : s.dropWhile isWhiteSpace = c :: (t ++ ys).reverse := by
    have := congrArg List.reverse ht
    rw [List.reverse_reverse] at this
    rw [← this]
    simp
  apply head_dropWhile_isWhiteSpace s c
  rw [hrev]
  rfl

theorem startsWith_singleton (p : Str) (c : Char) :
    startsWith p [c] = true ↔ p.head? = some c := by
  cases p with
  | nil => simp [startsWith, List.isPrefixOf]
  | cons x xs =>
    simp only [startsWith, List.isPrefixOf, List.head?_cons, Bool.and_true, beq_iff_eq,
      Option.some.injEq]
    exact eq_comm

theorem endsWith_singleton (p : Str) (c : Char) :
    endsWith p [c] = true ↔ p.getLast? = some c := by
  unfold endsWith
  rw [List.isSuffixOf_iff_suffix, List.getLast?_eq_some_iff]
  constructor
  · rintro ⟨t, ht⟩; exact ⟨t, ht.symm⟩
  · rintro ⟨t, ht⟩; exact ⟨t, ht.symm⟩

theorem map_filter_eq_filterMap {α β : Type} (q : α → Bool) (g : α → β) (h : α → Option β)
    (hyp : ∀ x, h x = if q x = true then some (g x) else none) (l : List α) :
    (l.filter q).map g = l.filterMap h := by
  induction l with
  | nil => rfl
  | cons x xs ih =>
    cases hq : q x
    · simp [List.filter_cons, List.filterMap_cons, hyp x, hq, ih]
    · simp [List.filter_cons, List.filterMap_cons, hyp x, hq, ih]

theorem parseGitignoreContent_eq_specified (text : Str) :
    parseGitignoreContent text = specifiedPatterns text := by
  unfold parseGitignoreContent specifiedPatterns
  apply map_filter_eq_filterMap
  intro line
  have hstart := startsWith_singleton line '#'
  have hend := endsWith_singleton line '/'
  by_cases h1 : line = []
  · simp [h1]
  by_cases h2 : line.head? = some '#'
  · have : startsWith line ['#'] = true := hstart.2 h2
    simp [h1, h2, this]
  · have hs : startsWith line ['#'] = false := by
      rw [Bool.eq_false_iff]; exact fun e => h2 (hstart.1 e)
    by_cases h3 : line.getLast? = some '/'
    · have : endsWith line ['/'] = true := hend.2 h3
      simp [h1, h2, h3, hs, this]
    · have he : endsWith line ['/'] = false := by
        rw [Bool.eq_false_iff]; exact fun e => h3 (hend.1 e)
      simp [h1, h2, h3, hs, he]

theorem specifiedPatterns_clean (text : Str) :
    ∀ p ∈ specifiedPatterns text,
      p ≠ [] ∧ p.head? ≠ some '#' ∧
        (∀ c, p.head? = some c → isWhiteSpace c = false) ∧
        (∀ c, p.getLast? = some c → isWhiteSpace c = false) ∧
        p.getLast? ≠ some '/' := by
  intro p hp
  unfold specifiedPatterns at hp
  rw [List.mem_filterMap] at hp
  obtain ⟨line, hline, hp⟩ := hp
  obtain ⟨raw, _, rfl⟩ := List.mem_map.1 hline
  by_cases h1 : trim raw = [] ∨ (trim raw).head? = some '#'
  · rw [if_pos h1] at hp
    exact absurd hp (by simp)
  · rw [if_neg h1] at hp
    rw [not_or] at h1
    obtain ⟨hne, hhash⟩ := h1
    obtain ⟨x, xs, hx⟩ := List.exists_cons_of_ne_nil hne
    by_cases h3 : (trim raw).getLast? = some '/'
    · rw [if_pos h3] at hp
      have hp2 : p = trim raw ++ ['*', '*'] := (Option.some.inj hp).symm
      subst hp2
      refine ⟨by simp [hne], ?_, ?_, ?_, ?_⟩
      · rw [hx] at hhash ⊢
        simpa using hhash
      · intro c hc
        apply trim_head raw c
        rw [hx] at hc ⊢
        simpa using hc
      · intro c hc
        have : c = '*' := by
          have h5 : (trim raw ++ ['*', '*']).getLast? = some '*' := by
            rw [List.getLast?_append]; rfl
          rw [h5] at hc
          exact (Option.some.inj hc).symm
        subst this
        decide
      · have h5 : (trim raw ++ ['*', '*']).getLast? = some '*' := by
          rw [List.getLast?_append]; rfl
        rw [h5]
        decide
    · rw [if_neg h3] at hp
      have hp2 : p = trim raw := (Option.some.inj hp).symm
      subst hp2
      exact ⟨hne, hhash, fun c hc => trim_head raw c hc, fun c hc => trim_last raw c hc, h3⟩

/-- C12: for an ignore file that exists and is read, `parseGitignore` returns,
in the order of the file, the lines between line feeds, trimmed, that are not
empty and do not begin with `#`, with `**` appended to those ending in `/`; so
no returned pattern is empty, begins with `#`, begins or ends with a
whitespace character, or ends in `/`. -/
theorem parseGitignore_rules (fs : FileSystem) (gitignorePath text : Str)
    (hexists : fs.pathExists gitignorePath = true)
    (hread : fs.readFileUtf8 gitignorePath = .ok text) :
    parseGitignore fs gitignorePath = specifiedPatterns text ∧
      ∀ p ∈ parseGitignore fs gitignorePath,
        p ≠ [] ∧ p.head? ≠ some '#' ∧
          (∀ c, p.head? = some c → isWhiteSpace c = false) ∧
          (∀ c, p.getLast? = some c → isWhiteSpace c = false) ∧
          p.getLast? ≠ some '/' := by
  have h : parseGitignore fs gitignorePath = specifiedPatterns text := by
    unfold parseGitignore
    simp only [hexists, hread, Bool.not_true, Bool.false_eq_true, if_false]
    exact parseGitignoreContent_eq_specified text
  rw [h]
  exact ⟨rfl, specifiedPatterns_clean text⟩

/-- C12 at an ignore file with a comment, a blank line, the line `dist/` with
spaces around it, `*.log` and `!keep.log`. -/
theorem parseGitignore_rules_witness :
    (rulesRoot.pathExists "/root/.gitignore".toList = true ∧
        rulesRoot.readFileUtf8 "/root/.gitignore".toList =
          .ok "# build output\n\n  dist/  \n*.log\n!keep.log\n".toList) ∧
      parseGitignore rulesRoot "/root/.gitignore".toList =
        specifiedPatterns "# build output\n\n  dist/  \n*.log\n!keep.log\n".toList ∧
      parseGitignore rulesRoot "/root/.gitignore".toList =
        ["dist/**".toList, "*.log".toList, "!keep.log".toList] :=
  ⟨⟨by decide, rfl⟩,
    (parseGitignore_rules rulesRoot "/root/.gitignore".toList
      "# build output\n\n  dist/  \n*.log\n!keep.log\n".toList (by decide) rfl).1,
    by decide⟩

end Flattener
